import Mathlib

/-!
# tes-credential-component: the field extractor `extract_json_string` and the client `main`

A shallow embedding of `extract_json_string` and `main` from
`modules/tes-credential-component/bin/tes-credential-component.c`.

Conventions of the embedding:

* a C `char` is a `Char`; the terminator is `NUL`, and `isspace` is that of the
  "C" locale;
* memory holding a C string is a `List Char`; the string itself is the part
  before the first `NUL` (`cstr`), and reading at the end of the list reads
  the terminator;
* a `const char *` into a string is the list of characters from that
  position on;
* the output buffer `value` is not copied: every store `value[i] = c` is
  recorded, in program order, as the pair `(i, c)`; `store` replays a
  record on a buffer;
* `size_t` is 64 bits wide;
* what the system calls of `main` return is an input (`Env`); a run records the calls made, in
  order, the exit status and the extractions.
-/

namespace TesCredential

/-! ## C library functions used by the extractor -/

/-- The string terminator. -/
def NUL : Char := '\x00'

/-- The C string held in memory `m`: the characters before the first `NUL`. -/
def cstr (m : List Char) : List Char := m.takeWhile (fun c => c != NUL)

/-- The width of `size_t`, in bits. -/
def SIZE_BITS : Nat := 64

/-- Subtraction `a - b` on `size_t`, which wraps around below zero. -/
def size_sub (a b : Nat) : Nat := (a % 2 ^ SIZE_BITS + 2 ^ SIZE_BITS - b % 2 ^ SIZE_BITS) % 2 ^ SIZE_BITS

/-- `isspace` in the "C" locale (the program never calls `setlocale`): space, `\t`, `\n`, `\v`, `\f`, `\r`. -/
def isspace (c : Char) : Bool :=
  c == ' ' || c == '\t' || c == '\n' || c == '\x0b' || c == '\x0c' || c == '\r'

/-- `strstr(haystack, needle)`: the position of the first occurrence of `needle`, or `none` for `NULL`. -/
def strstr : List Char → List Char → Option (List Char)
  | [], needle => if needle.isEmpty then some [] else none
  | c :: cs, needle => if needle.isPrefixOf (c :: cs) then some (c :: cs) else strstr cs needle

/-- `strchr(s, c)`: the position of the first `c` in `s`, or `none` for `NULL`. -/
def strchr : List Char → Char → Option (List Char)
  | [], c => if c = NUL then some [] else none
  | a :: as, c => if a = c then some (a :: as) else strchr as c

/-- `snprintf(search_key, size, "\"%s\"", key)`: the key in double quotes, cut to `size - 1` characters. -/
def snprintf_quoted (size : Nat) (key : List Char) : List Char :=
  (['"'] ++ cstr key ++ ['"']).take (size - 1)

/-! ## `extract_json_string` -/

/-- The `return` statement through which `extract_json_string` leaves. -/
inductive Exit where
  /-- `return -1; // Key not found` -/
  | KeyNotFound
  /-- `return -1; // Invalid JSON format` (no colon after the key) -/
  | MalformedField
  /-- `return -1; // Not a string value` -/
  | NotAString
  /-- `return 0;` -/
  | Success
  deriving DecidableEq, Repr

/-- What a call does: where it returns, and the stores it made into `value`. -/
structure Outcome where
  exit : Exit
  writes : List (Nat × Char)
  deriving DecidableEq, Repr

/-- The `int` returned. -/
def Outcome.ret (o : Outcome) : Int :=
  match o.exit with
  | Exit.Success => 0
  | _ => -1

/-- The loop `while (*ptr && isspace(*ptr)) ptr++;`. -/
def skip_space : List Char → List Char
  | [] => []
  | c :: cs => if isspace c then skip_space cs else c :: cs

/-- The character stored for the character `c` that follows a backslash. -/
def unescape (c : Char) : Char :=
  if c = 'n' then '\n' else if c = 't' then '\t' else c

/-- The copying loop
`while (*ptr && *ptr != '"' && i < value_size - 1) { ... ptr++; }`,
started at `ptr` with index `i` and the stores `w` made so far; `limit` is
`value_size - 1`. Returns the final `i` and the stores. `ptr` runs over a C string, so the
empty list is `*ptr == 0` and the one-character list has `*(ptr + 1) == 0`: a backslash there
is copied as it is. `i` never wraps: it is below `limit` whenever it is incremented. -/
def copy_loop (limit : Nat) : List Char → Nat → List (Nat × Char) → Nat × List (Nat × Char)
  | [], i, w => (i, w)
  | [c], i, w =>
    if c = '"' then (i, w)
    else if ¬ i < limit then (i, w)
    else copy_loop limit [] (i + 1) (w ++ [(i, c)])
  | c :: d :: rest, i, w =>
    if c = '"' then (i, w)
    else if ¬ i < limit then (i, w)
    else if c = '\\' then copy_loop limit rest (i + 1) (w ++ [(i, unescape d)])
    else copy_loop limit (d :: rest) (i + 1) (w ++ [(i, c)])

/-- The function `extract_json_string(json, key, value, value_size)`. -/
def extract_json_string (json key : List Char) (value_size : Nat) : Outcome :=
  let search_key := snprintf_quoted 256 key
  match strstr (cstr json) search_key with
  | none => ⟨Exit.KeyNotFound, []⟩
  | some ptr =>
    match strchr (ptr.drop search_key.length) ':' with
    | none => ⟨Exit.MalformedField, []⟩
    | some ptr =>
      match skip_space (ptr.drop 1) with
      | [] => ⟨Exit.NotAString, []⟩
      | c :: ptr =>
        if c ≠ '"' then ⟨Exit.NotAString, []⟩
        else
          let r := copy_loop (size_sub value_size 1) ptr 0 []
          ⟨Exit.Success, r.2 ++ [(r.1, NUL)]⟩

/-- Replays recorded stores on a buffer. -/
def store (buf : List Char) : List (Nat × Char) → List Char
  | [] => buf
  | (i, c) :: w => store (buf.set i c) w

/-! ## The client: the four extractions of `main` -/

/-- A call `extract_json_string(buffer, key, buf, size)` on a zero-initialised `char buf[size]`:
the value returned and the buffer afterwards. -/
def extract_into (buffer key : List Char) (size : Nat) : Int × List Char :=
  ((extract_json_string buffer key size).ret,
    store (List.replicate size NUL) (extract_json_string buffer key size).writes)

/-- The return values and buffers of the four extractions `main` makes on the received buffer. -/
structure Extractions where
  access_key : Int × List Char
  secret_key : Int × List Char
  session_token : Int × List Char
  expiration : Int × List Char
  deriving DecidableEq, Repr

/-- The extraction part of `main`: `access_key[256]`, `secret_key[256]`, `session_token[2048]`
and `expiration[64]` filled from the received buffer. -/
def main_extractions (buffer : List Char) : Extractions :=
  { access_key := extract_into buffer "AccessKeyId".toList 256
    secret_key := extract_into buffer "SecretAccessKey".toList 256
    session_token := extract_into buffer "Token".toList 2048
    expiration := extract_into buffer "Expiration".toList 64 }

/-! ## The client: `main` and its system calls -/

/-- The size `BUFFER_SIZE` of the response buffer. -/
def BUFFER_SIZE : Nat := 4096

/-- The request payload `main` writes to the socket. -/
def request : List Char :=
  "\x7b\"method\":\"request_credentials_formatted\",\"params\":\x7b\x7d\x7d".toList

/-- What the system calls of one run of `main` return. -/
structure Env where
  /-- The value of `socket(AF_UNIX, SOCK_STREAM, 0)`: a descriptor, or negative on failure. -/
  socket : Int
  /-- The value of `connect(sock, ...)`: negative on failure. -/
  connect : Int
  /-- The value of `write(sock, request, strlen(request))`: the number of bytes written, or
  negative on error. -/
  write : Int
  /-- The result of `read(sock, buffer, BUFFER_SIZE - 1)`: `none` for a negative value, else
  the bytes received, of which at most `BUFFER_SIZE - 1` are delivered. -/
  read : Option (List Char)

/-- A system call made by `main`. -/
inductive Call where
  | socket
  | connect
  | write
  | read
  | close
  deriving DecidableEq, Repr

/-- One run of `main`: its exit status, the system calls it made, in order, and the four
extractions it made and printed, if it got that far. -/
structure Run where
  status : Int
  calls : List Call
  extracted : Option Extractions

/-- The response buffer after `memset(buffer, 0, BUFFER_SIZE)`, the `read` that delivered
`data`, and `buffer[bytes_read] = 0`. -/
def received_buffer (data : List Char) : List Char :=
  ((data.take (BUFFER_SIZE - 1)) ++
    List.replicate (BUFFER_SIZE - (data.take (BUFFER_SIZE - 1)).length) NUL).set
      (data.take (BUFFER_SIZE - 1)).length NUL

/-- The function `main`, the program's messages left out. -/
def main (env : Env) : Run :=
  if env.socket < 0 then ⟨1, [Call.socket], none⟩
  else if env.connect < 0 then ⟨1, [Call.socket, Call.connect, Call.close], none⟩
  else if env.write < 0 then ⟨1, [Call.socket, Call.connect, Call.write, Call.close], none⟩
  else
    match env.read with
    | none => ⟨1, [Call.socket, Call.connect, Call.write, Call.read, Call.close], none⟩
    | some data =>
      ⟨0, [Call.socket, Call.connect, Call.write, Call.read, Call.close],
        some (main_extractions (received_buffer data))⟩

/-! ## Vocabulary of the specification -/

/-- The key wrapped in double quotes. -/
def quote (key : List Char) : List Char := '"' :: (key ++ ['"'])

/-- The pattern `extract_json_string` searches for: the contents of its buffer `search_key[256]`. -/
def search_pattern (key : List Char) : List Char := snprintf_quoted 256 key

/-- The pattern `pat` occurs in `text` at offset `n` and at no smaller offset. -/
def first_at (pat text : List Char) (n : Nat) : Prop :=
  pat.isPrefixOf (text.drop n) = true ∧ ∀ i, i < n → pat.isPrefixOf (text.drop i) = false

instance (pat text : List Char) (n : Nat) : Decidable (first_at pat text n) := by
  unfold first_at
  infer_instance

/-- One unit of an encoded string value: a plain character, or a backslash and the character after it. -/
inductive Item where
  | plain (c : Char)
  | esc (c : Char)
  deriving DecidableEq, Repr

/-- The characters an item takes in the text. -/
def Item.encode : Item → List Char
  | Item.plain c => [c]
  | Item.esc c => ['\\', c]

/-- The decoding the specification gives: backslash-n is a newline, backslash-t a tab, any other escaped character is itself. -/
def Item.decode : Item → Char
  | Item.plain c => c
  | Item.esc c => if c = 'n' then '\n' else if c = 't' then '\t' else c

/-- A plain character is no double quote, backslash or NUL; an escaped character is not NUL. -/
def Item.ok : Item → Prop
  | Item.plain c => c ≠ '"' ∧ c ≠ '\\' ∧ c ≠ NUL
  | Item.esc c => c ≠ NUL

instance (it : Item) : Decidable it.ok := by
  cases it <;> unfold Item.ok <;> infer_instance

/-- The text of a sequence of items. -/
def encode_items : List Item → List Char
  | [] => []
  | it :: its => it.encode ++ encode_items its

/-- The encoding `enc` of the round trip: a newline becomes backslash-n, a tab backslash-t. -/
def enc : List Char → List Char
  | [] => []
  | c :: cs => (if c = '\n' then ['\\', 'n'] else if c = '\t' then ['\\', 't'] else [c]) ++ enc cs

/-- The value read back from a buffer as a C string after the stores of an outcome. -/
def Outcome.value (o : Outcome) (buf : List Char) : List Char := cstr (store buf o.writes)

/-- The item a character of the decoded value is encoded as by `enc`. -/
def enc_item (c : Char) : Item :=
  if c = '\n' then Item.esc 'n' else if c = '\t' then Item.esc 't' else Item.plain c

/-- A flat response: the fields `"key":"string"`, separated by commas. -/
def render_fields : List (List Char × List Char) → List Char
  | [] => []
  | [(k, v)] => quote k ++ ':' :: quote v
  | (k, v) :: f :: fs => quote k ++ ':' :: quote v ++ ',' :: render_fields (f :: fs)

/-- A well-formed flat response: the comma-separated fields between braces. -/
def flat_response (fields : List (List Char × List Char)) : List Char :=
  '\x7b' :: (render_fields fields ++ ['\x7d'])

/-- The characters the copying loop stores when no limit stops it: the value decoded up to the
closing quote or the end of input. -/
def decoded : List Char → List Char
  | [] => []
  | [c] => if c = '"' then [] else [c]
  | c :: d :: rest =>
    if c = '"' then []
    else if c = '\\' then unescape d :: decoded rest
    else c :: decoded (d :: rest)

/-- The received buffer of scenario A. -/
def scenario_A : List Char :=
  "\x7b\"AccessKeyId\":\"AKIA123\",\"SecretAccessKey\":\"secret\",\"Token\":\"tok\",\"Expiration\":\"2024-01-01T00:00:00Z\"\x7d".toList

/-- A key of 254 characters, one more than the pattern buffer holds with both quotes. -/
def long_key : List Char := List.replicate 254 'a'

/-- The start `{"aaa...ax":"zzz",` of a response: a field whose key is `long_key` and one more
character `x`. -/
def long_key_shadow : List Char :=
  '\x7b' :: (quote (long_key ++ ['x']) ++ ":\"zzz\",".toList)

/-- The response `{"aaa...ax":"zzz","aaa...a":"a\nb"}`: the field of `long_key` holds the encoded
value `a`, newline, `b`. -/
def long_key_round_trip_text : List Char :=
  long_key_shadow ++ (quote long_key ++ (':' :: '"' :: (enc ['a', '\n', 'b'] ++ "\"\x7d".toList)))

/-- The response `{"aaa...ax":"zzz","aaa...a":5}`: the field of `long_key` holds a number. -/
def long_key_number_text : List Char := long_key_shadow ++ (quote long_key ++ ":5\x7d".toList)

/-- The text `{"aaa...ax":"zzz","aaa...a"}`: no colon after the quoted `long_key`. -/
def long_key_no_colon_text : List Char := long_key_shadow ++ (quote long_key ++ "\x7d".toList)

/-- A key of 258 characters: `long_key`, then a colon, a double quote, `x` and a backslash. -/
def colon_key : List Char := long_key ++ [':', '"', 'x', '\\']

/-! ## Lemmas on the library functions -/

theorem cstr_no_nul (m : List Char) : NUL ∉ cstr m := by
  intro h
  have := List.mem_takeWhile_imp h
  simp at this

theorem cstr_of_no_nul {m : List Char} (h : NUL ∉ m) : cstr m = m := by
  unfold cstr
  rw [List.takeWhile_eq_self_iff]
  intro x hx
  simp only [bne_iff_ne, ne_eq]
  rintro rfl
  exact h hx

theorem cstr_append_nul (s t : List Char) (h : NUL ∉ s) : cstr (s ++ NUL :: t) = s := by
  induction s with
  | nil => simp [cstr]
  | cons c s ih =>
    have hc : c ≠ NUL := fun e => h (by simp [e])
    have hs : NUL ∉ s := fun e => h (by simp [e])
    have := ih hs
    simp only [cstr] at this ⊢
    simp [List.takeWhile_cons, hc, this]

theorem strstr_of_first_at (pat : List Char) (hpat : pat ≠ []) :
    ∀ (n : Nat) (text : List Char), first_at pat text n → strstr text pat = some (text.drop n) := by
  intro n
  induction n with
  | zero =>
    intro text h
    obtain ⟨h0, -⟩ := h
    simp only [List.drop_zero] at h0 ⊢
    cases text with
    | nil =>
      cases pat with
      | nil => exact absurd rfl hpat
      | cons a p => simp [List.isPrefixOf] at h0
    | cons c cs => simp [strstr, h0]
  | succ n ih =>
    intro text h
    obtain ⟨hn, hlt⟩ := h
    cases text with
    | nil =>
      cases pat with
      | nil => exact absurd rfl hpat
      | cons a p => simp [List.isPrefixOf] at hn
    | cons c cs =>
      have h0 := hlt 0 (Nat.succ_pos n)
      simp only [List.drop_zero] at h0
      have hrec : first_at pat cs n := by
        refine ⟨by simpa using hn, ?_⟩
        intro i hi
        have := hlt (i + 1) (by omega)
        simpa using this
      simp only [strstr, h0, List.drop_succ_cons]
      simpa using ih cs hrec

theorem strstr_eq_none (pat : List Char) :
    ∀ text : List Char, ¬ pat <:+: text → strstr text pat = none := by
  intro text
  induction text with
  | nil =>
    intro h
    cases pat with
    | nil => exact absurd (List.infix_refl []) h
    | cons a p => simp [strstr]
  | cons c cs ih =>
    intro h
    have h1 : pat.isPrefixOf (c :: cs) = false := by
      cases hp : pat.isPrefixOf (c :: cs) with
      | false => rfl
      | true => exact absurd ( List.isPrefixOf_iff_prefix.mp hp).isInfix h
    have h2 : ¬ pat <:+: cs := fun hh => h (hh.trans (List.suffix_cons c cs).isInfix)
    simp [strstr, h1, ih h2]

theorem strstr_some_infix (pat : List Char) :
    ∀ text p : List Char, strstr text pat = some p → pat <:+: text := by
  intro text
  induction text with
  | nil =>
    intro p h
    cases pat with
    | nil => exact List.infix_refl []
    | cons a q => simp [strstr] at h
  | cons c cs ih =>
    intro p h
    cases hp : pat.isPrefixOf (c :: cs) with
    | true => exact ( List.isPrefixOf_iff_prefix.mp hp).isInfix
    | false =>
      simp only [strstr, hp] at h
      exact (ih p (by simpa using h)).trans (List.suffix_cons c cs).isInfix

theorem strchr_first (c : Char) :
    ∀ (mid rest : List Char), c ∉ mid → strchr (mid ++ c :: rest) c = some (c :: rest) := by
  intro mid
  induction mid with
  | nil => intro rest _; simp [strchr]
  | cons a mid ih =>
    intro rest h
    have ha : a ≠ c := fun e => h (by simp [e])
    have hm : c ∉ mid := fun e => h (by simp [e])
    simp [strchr, ha, ih rest hm]

theorem strchr_none (c : Char) (hc : c ≠ NUL) :
    ∀ s : List Char, c ∉ s → strchr s c = none := by
  intro s
  induction s with
  | nil => intro _; simp [strchr, hc]
  | cons a s ih =>
    intro h
    have ha : a ≠ c := fun e => h (by simp [e])
    have hm : c ∉ s := fun e => h (by simp [e])
    simp [strchr, ha, ih hm]

theorem skip_space_append (ws rest : List Char) (h : ∀ c ∈ ws, isspace c = true) :
    skip_space (ws ++ rest) = skip_space rest := by
  induction ws with
  | nil => rfl
  | cons a ws ih =>
    have ha : isspace a = true := h a (by simp)
    have hw : ∀ c ∈ ws, isspace c = true := fun c hc => h c (by simp [hc])
    simp [skip_space, ha, ih hw]

theorem skip_space_stop (c : Char) (rest : List Char) (h : isspace c = false) :
    skip_space (c :: rest) = c :: rest := by
  simp [skip_space, h]

/-! ## Lemmas on the copying loop -/

theorem copy_loop_quote (limit : Nat) (rest : List Char) (i : Nat) (w : List (Nat × Char)) :
    copy_loop limit ('"' :: rest) i w = (i, w) := by
  cases rest <;> simp [copy_loop]

theorem copy_loop_full (limit : Nat) (s : List Char) (i : Nat) (w : List (Nat × Char))
    (h : ¬ i < limit) : copy_loop limit s i w = (i, w) := by
  match s with
  | [] => simp [copy_loop]
  | [c] => simp [copy_loop, h]
  | c :: d :: rest => simp [copy_loop, h]

theorem copy_loop_plain (limit : Nat) (c : Char) (s : List Char) (i : Nat) (w : List (Nat × Char))
    (hq : c ≠ '"') (hb : c ≠ '\\') (h : i < limit) :
    copy_loop limit (c :: s) i w = copy_loop limit s (i + 1) (w ++ [(i, c)]) := by
  cases s <;> simp [copy_loop, hq, hb, h]

theorem copy_loop_esc (limit : Nat) (d : Char) (s : List Char) (i : Nat) (w : List (Nat × Char))
    (h : i < limit) :
    copy_loop limit ('\\' :: d :: s) i w = copy_loop limit s (i + 1) (w ++ [(i, unescape d)]) := by
  simp [copy_loop, h]

theorem copy_loop_lone_backslash (limit : Nat) (i : Nat) (w : List (Nat × Char)) (h : i < limit) :
    copy_loop limit ['\\'] i w = (i + 1, w ++ [(i, '\\')]) := by
  simp [copy_loop, h]

theorem unescape_eq_decode (c : Char) : unescape c = (Item.esc c).decode := rfl

theorem copy_loop_item (limit : Nat) (it : Item) (hit : it.ok) (s : List Char) (i : Nat)
    (w : List (Nat × Char)) (h : i < limit) :
    copy_loop limit (it.encode ++ s) i w = copy_loop limit s (i + 1) (w ++ [(i, it.decode)]) := by
  cases it with
  | plain c => exact copy_loop_plain limit c s i w hit.1 hit.2.1 h
  | esc c => exact copy_loop_esc limit c s i w h

/-- Items that fit below the limit are all copied, decoded, to consecutive indices. -/
theorem copy_loop_items (limit : Nat) :
    ∀ (its : List Item) (tail : List Char) (i : Nat) (w : List (Nat × Char)),
      (∀ it ∈ its, it.ok) → i + its.length ≤ limit →
      copy_loop limit (encode_items its ++ tail) i w =
        copy_loop limit tail (i + its.length) (w ++ List.enumFrom i (its.map Item.decode)) := by
  intro its
  induction its with
  | nil => intro tail i w _ _; simp [encode_items]
  | cons it its ih =>
    intro tail i w hok hlen
    have h1 : it.ok := hok it (by simp)
    have h2 : ∀ x ∈ its, x.ok := fun x hx => hok x (by simp [hx])
    simp only [List.length_cons] at hlen
    simp only [encode_items, List.append_assoc]
    rw [copy_loop_item limit it h1 _ i w (by omega), ih tail (i + 1) _ h2 (by omega)]
    simp only [List.length_cons, List.map_cons, List.enumFrom_cons, List.append_assoc,
      List.singleton_append]
    congr 1
    omega

/-- Items followed by a closing quote, by the end of input, or too many to fit: the first
`limit - i` of them are copied. -/
theorem copy_loop_items_stop (limit : Nat) (its : List Item) (tail : List Char) (i : Nat)
    (w : List (Nat × Char)) (hok : ∀ it ∈ its, it.ok)
    (hstop : limit - i ≤ its.length ∨ tail = [] ∨ ∃ t, tail = '"' :: t) :
    copy_loop limit (encode_items its ++ tail) i w =
      (i + min its.length (limit - i),
        w ++ List.enumFrom i ((its.map Item.decode).take (limit - i))) := by
  by_cases hi : limit ≤ i
  · rw [copy_loop_full limit _ i w (by omega)]
    simp [Nat.sub_eq_zero_of_le hi]
  by_cases hfit : its.length ≤ limit - i
  · by_cases hlt : limit - i ≤ its.length
    · have heq : its.length = limit - i := by omega
      rw [copy_loop_items limit its tail i w hok (by omega),
        copy_loop_full limit tail _ _ (by omega)]
      rw [List.take_of_length_le (by simp [heq])]
      simp [heq]
    · rw [copy_loop_items limit its tail i w hok (by omega)]
      rw [List.take_of_length_le (by simp; omega)]
      rw [Nat.min_eq_left hfit]
      rcases hstop with h | h | ⟨t, h⟩
      · exact absurd h hlt
      · subst h; simp [copy_loop]
      · subst h; exact copy_loop_quote limit t _ _
  · have hsplit : its = its.take (limit - i) ++ its.drop (limit - i) := (List.take_append_drop _ _).symm
    have hlen : (its.take (limit - i)).length = limit - i := by
      rw [List.length_take]; omega
    have henc : ∀ (a b : List Item), encode_items (a ++ b) = encode_items a ++ encode_items b := by
      intro a b
      induction a with
      | nil => rfl
      | cons x a iha => simp [encode_items, iha]
    have hok1 : ∀ it ∈ its.take (limit - i), it.ok := fun it hit => hok it (List.mem_of_mem_take hit)
    conv_lhs => rw [hsplit, henc, List.append_assoc]
    rw [copy_loop_items limit _ _ i w hok1 (by omega), copy_loop_full limit _ _ _ (by omega)]
    rw [hlen, List.map_take]
    congr 1
    omega

/-! ## Lemmas on replaying stores -/

theorem store_append (buf : List Char) (w1 w2 : List (Nat × Char)) :
    store buf (w1 ++ w2) = store (store buf w1) w2 := by
  induction w1 generalizing buf with
  | nil => rfl
  | cons p w1 ih => obtain ⟨i, c⟩ := p; simp [store, ih]

theorem store_length (buf : List Char) (w : List (Nat × Char)) :
    (store buf w).length = buf.length := by
  induction w generalizing buf with
  | nil => rfl
  | cons p w ih => obtain ⟨i, c⟩ := p; simp [store, ih]

/-- Storing characters at consecutive indices inside the buffer overwrites that stretch. -/
theorem store_enumFrom (cs : List Char) :
    ∀ (buf : List Char) (i : Nat), i + cs.length ≤ buf.length →
      store buf (List.enumFrom i cs) = buf.take i ++ cs ++ buf.drop (i + cs.length) := by
  induction cs with
  | nil => intro buf i _; simp [store]
  | cons c cs ih =>
    intro buf i h
    simp only [List.length_cons] at h
    simp only [List.enumFrom_cons, store]
    rw [ih (buf.set i c) (i + 1) (by simp; omega)]
    rw [List.set_eq_take_append_cons_drop, if_pos (by omega)]
    have h1 : (List.take i buf).length = i := by rw [List.length_take]; omega
    have e1 : List.take (i + 1) (List.take i buf ++ c :: List.drop (i + 1) buf)
        = List.take i buf ++ [c] := by
      rw [List.take_append_eq_append_take, h1]
      simp [List.take_of_length_le (Nat.le_succ_of_le (Nat.le_of_eq h1))]
    have e2 : List.drop (i + 1 + cs.length) (List.take i buf ++ c :: List.drop (i + 1) buf)
        = List.drop (i + (cs.length + 1)) buf := by
      rw [List.drop_append_eq_append_drop, h1]
      rw [List.drop_of_length_le (by omega)]
      have : i + 1 + cs.length - i = cs.length + 1 := by omega
      simp only [this, List.nil_append, List.drop_succ_cons, List.drop_drop]
      congr 1
      omega
    rw [e1, e2]
    simp

/-- A value stored from index 0 and terminated is read back as a C string. -/
theorem value_of_writes (v : List Char) (hv : NUL ∉ v) (buf : List Char) (h : v.length < buf.length) :
    cstr (store buf (List.enumFrom 0 (v ++ [NUL]))) = v := by
  rw [store_enumFrom _ buf 0 (by simp; omega)]
  simp only [List.take_zero, List.nil_append, List.append_assoc, List.singleton_append]
  exact cstr_append_nul v _ hv

/-! ## Lemmas on `extract_json_string` -/

theorem size_sub_one (n : Nat) (h1 : 1 ≤ n) (h2 : n < 2 ^ 64) : size_sub n 1 = n - 1 := by
  unfold size_sub SIZE_BITS
  omega

theorem size_sub_zero_one : size_sub 0 1 = 2 ^ 64 - 1 := by decide

theorem search_pattern_ne_nil (key : List Char) : search_pattern key ≠ [] := by
  simp [search_pattern, snprintf_quoted]

/-- A key of at most 253 characters is searched for in full, between its two quotes. -/
theorem search_pattern_eq_quote (key : List Char) (hkey : NUL ∉ key) (hlen : key.length ≤ 253) :
    search_pattern key = quote key := by
  unfold search_pattern snprintf_quoted quote
  rw [cstr_of_no_nul hkey]
  simp only [List.singleton_append, List.cons_append]
  apply List.take_of_length_le
  simp
  omega

/-- The run of `extract_json_string` on a text in which the first occurrence of the search
pattern is followed, after colon-free characters, by a colon, white space and an opening quote:
the copying loop runs on what follows that quote. -/
theorem extract_located (json key pre mid ws body : List Char) (value_size : Nat)
    (htext : cstr json = pre ++ (search_pattern key ++ (mid ++ ':' :: (ws ++ '"' :: body))))
    (hfirst : first_at (search_pattern key) (cstr json) pre.length)
    (hmid : ':' ∉ mid) (hws : ∀ c ∈ ws, isspace c = true) :
    extract_json_string json key value_size =
      ⟨Exit.Success, (copy_loop (size_sub value_size 1) body 0 []).2 ++
        [((copy_loop (size_sub value_size 1) body 0 []).1, NUL)]⟩ := by
  have h1 := strstr_of_first_at (search_pattern key) (search_pattern_ne_nil key) _ _ hfirst
  rw [htext, List.drop_left] at h1
  unfold extract_json_string
  simp only
  rw [show snprintf_quoted 256 key = search_pattern key from rfl, htext, h1]
  simp only [List.drop_left]
  rw [strchr_first ':' mid _ hmid]
  simp only [List.drop_succ_cons, List.drop_zero]
  rw [skip_space_append ws _ hws, skip_space_stop '"' body (by decide)]
  simp

/-- The pattern is not in the text: the call leaves by `return -1; // Key not found`. -/
theorem extract_key_not_found (json key : List Char) (value_size : Nat)
    (h : ¬ search_pattern key <:+: cstr json) :
    extract_json_string json key value_size = ⟨Exit.KeyNotFound, []⟩ := by
  unfold extract_json_string
  simp only
  rw [show snprintf_quoted 256 key = search_pattern key from rfl, strstr_eq_none _ _ h]

/-- Stores of the copying loop stay below the limit. -/
theorem copy_loop_bounds (limit : Nat) :
    ∀ (k : Nat) (s : List Char) (i : Nat) (w : List (Nat × Char)), s.length ≤ k →
      i ≤ limit → (∀ p ∈ w, p.1 < limit) →
      (copy_loop limit s i w).1 ≤ limit ∧ ∀ p ∈ (copy_loop limit s i w).2, p.1 < limit := by
  intro k
  induction k with
  | zero =>
    intro s i w hs hi hw
    have : s = [] := List.length_eq_zero.mp (Nat.le_zero.mp hs)
    subst this
    simp only [copy_loop]
    exact ⟨hi, hw⟩
  | succ k ih =>
    intro s i w hs hi hw
    match s, hs with
    | [], _ =>
      simp only [copy_loop]
      exact ⟨hi, hw⟩
    | [c], _ =>
      simp only [copy_loop]
      split
      · exact ⟨hi, hw⟩
      · split
        · exact ⟨hi, hw⟩
        · rename_i h
          have hlt : i < limit := by simpa using h
          refine ⟨hlt, ?_⟩
          intro p hp
          rcases List.mem_append.mp hp with hp | hp
          · exact hw p hp
          · simp only [List.mem_singleton] at hp; subst hp; exact hlt
    | c :: d :: rest, hs =>
      simp only [copy_loop]
      simp only [List.length_cons] at hs
      split
      · exact ⟨hi, hw⟩
      · split
        · exact ⟨hi, hw⟩
        · rename_i h
          have hlt : i < limit := by simpa using h
          have hw2 : ∀ (x : Char), ∀ p ∈ w ++ [(i, x)], p.1 < limit := by
            intro x p hp
            rcases List.mem_append.mp hp with hp | hp
            · exact hw p hp
            · simp only [List.mem_singleton] at hp; subst hp; exact hlt
          split
          · exact ih rest (i + 1) _ (by omega) hlt (hw2 _)
          · exact ih (d :: rest) (i + 1) _ (by simp; omega) hlt (hw2 _)

/-- For a buffer size from 1 up, every character is stored below index `value_size - 1` and the
terminator at an index below `value_size`. -/
theorem extract_writes_in_bounds (json key : List Char) (value_size : Nat)
    (h1 : 1 ≤ value_size) (h2 : value_size < 2 ^ 64) :
    extract_json_string json key value_size = ⟨(extract_json_string json key value_size).exit, []⟩ ∨
    ∃ (cw : List (Nat × Char)) (i : Nat),
      (extract_json_string json key value_size).writes = cw ++ [(i, NUL)] ∧
      (∀ p ∈ cw, p.1 < value_size - 1) ∧ i < value_size := by
  unfold extract_json_string
  simp only
  split
  · exact Or.inl rfl
  · split
    · exact Or.inl rfl
    · split
      · exact Or.inl rfl
      · split
        · exact Or.inl rfl
        right
        rename_i ptr _ _
        have hb := copy_loop_bounds (size_sub value_size 1) ptr.length ptr 0 [] (le_refl _)
          (Nat.zero_le _) (by simp)
        rw [size_sub_one value_size h1 h2] at hb ⊢
        exact ⟨_, _, rfl, hb.2, by omega⟩

/-- For a buffer size from 1 up, no store goes to an index at or above `value_size`, and only the
terminator can go to index `value_size - 1`. -/
theorem extract_stores_below_size (json key : List Char) (value_size : Nat)
    (h1 : 1 ≤ value_size) (h2 : value_size < 2 ^ 64) :
    ∀ p ∈ (extract_json_string json key value_size).writes,
      p.1 < value_size ∧ (p.2 ≠ NUL → p.1 < value_size - 1) := by
  intro p hp
  rcases extract_writes_in_bounds json key value_size h1 h2 with h | ⟨cw, i, hw, hcw, hi⟩
  · rw [h] at hp
    simp at hp
  · rw [hw] at hp
    rcases List.mem_append.mp hp with hp | hp
    · have := hcw p hp
      exact ⟨by omega, fun _ => this⟩
    · simp only [List.mem_singleton] at hp
      subst hp
      exact ⟨hi, fun h => absurd rfl h⟩

/-- The located field holds items: the first `value_size - 1` of them are stored, decoded, from
index 0 on, and the terminator after them. The items end at a closing quote or at the end of
input, unless there are more of them than fit. -/
theorem extract_items (json key pre mid ws : List Char) (its : List Item) (tail : List Char)
    (value_size : Nat)
    (htext : cstr json = pre ++ (search_pattern key ++
      (mid ++ ':' :: (ws ++ '"' :: (encode_items its ++ tail)))))
    (hfirst : first_at (search_pattern key) (cstr json) pre.length)
    (hmid : ':' ∉ mid) (hws : ∀ c ∈ ws, isspace c = true) (hok : ∀ it ∈ its, it.ok)
    (hstop : value_size - 1 ≤ its.length ∨ tail = [] ∨ ∃ t, tail = '"' :: t)
    (h1 : 1 ≤ value_size) (h2 : value_size < 2 ^ 64) :
    extract_json_string json key value_size =
      ⟨Exit.Success, List.enumFrom 0 ((its.map Item.decode).take (value_size - 1) ++ [NUL])⟩ := by
  rw [extract_located json key pre mid ws _ value_size htext hfirst hmid hws,
    size_sub_one value_size h1 h2,
    copy_loop_items_stop (value_size - 1) its tail 0 [] hok (by simpa using hstop)]
  simp only [Nat.sub_zero, List.nil_append, Nat.zero_add, List.enumFrom_append, List.length_take,
    List.length_map, List.enumFrom_singleton]
  rw [Nat.min_comm]

theorem decode_ne_nul (it : Item) (h : it.ok) : it.decode ≠ NUL := by
  cases it with
  | plain c => exact h.2.2
  | esc c =>
    have hc : c ≠ NUL := h
    simp only [Item.decode]
    split
    · decide
    · split
      · decide
      · exact hc

theorem decode_items_no_nul (its : List Item) (hok : ∀ it ∈ its, it.ok) :
    NUL ∉ its.map Item.decode := by
  intro h
  obtain ⟨it, hit, he⟩ := List.mem_map.mp h
  exact decode_ne_nul it (hok it hit) he

theorem encode_items_plain (v : List Char) : encode_items (v.map Item.plain) = v := by
  induction v with
  | nil => rfl
  | cons c v ih => simp [encode_items, Item.encode, ih]

theorem decode_items_plain (v : List Char) : (v.map Item.plain).map Item.decode = v := by
  induction v with
  | nil => rfl
  | cons c v ih => simpa [Item.decode] using ih

/-! ## The claims -/

/-- C1, as stated, fails: the flat response `{"a":"k","b":"x","k":"v"}` contains the field
`"k":"v"`, yet extracting key `k` with size `len(v)+1` succeeds with `x`, because `"k"` first
occurs as the value of field `a`. -/
theorem C1_counterexample :
    flat_response [("a".toList, "k".toList), ("b".toList, "x".toList), ("k".toList, "v".toList)]
      = "\x7b\"a\":\"k\",\"b\":\"x\",\"k\":\"v\"\x7d".toList ∧
    (extract_json_string
      (flat_response [("a".toList, "k".toList), ("b".toList, "x".toList), ("k".toList, "v".toList)])
      "k".toList ("v".toList.length + 1)).ret = 0 ∧
    (extract_json_string
      (flat_response [("a".toList, "k".toList), ("b".toList, "x".toList), ("k".toList, "v".toList)])
      "k".toList ("v".toList.length + 1)).value (List.replicate 2 NUL) = "x".toList ∧
    (extract_json_string
      (flat_response [("a".toList, "k".toList), ("b".toList, "x".toList), ("k".toList, "v".toList)])
      "k".toList ("v".toList.length + 1)).value (List.replicate 2 NUL) ≠ "v".toList := by
  decide

/-- C1, amended: for every key `K`, every value `V` with no double quote, backslash or NUL, and
every text in which the first occurrence of the quoted key is followed at once by `:"V"`,
`extract_json_string(text, K, len(V)+1)` returns 0, stores `V` and its terminator from index 0
on, and the output read back from the buffer is exactly `V`. The quoted key is the search
pattern: `"K"` for every key of at most 253 characters (`search_pattern_eq_quote`). -/
theorem C1_first_occurrence_extracts (json K V pre rest : List Char)
    (hV : ∀ c ∈ V, c ≠ '"' ∧ c ≠ '\\' ∧ c ≠ NUL)
    (htext : cstr json = pre ++ (search_pattern K ++ (':' :: (quote V ++ rest))))
    (hfirst : first_at (search_pattern K) (cstr json) pre.length)
    (hsize : V.length + 1 < 2 ^ 64) :
    (extract_json_string json K (V.length + 1)).ret = 0 ∧
    (extract_json_string json K (V.length + 1)).writes = List.enumFrom 0 (V ++ [NUL]) ∧
    ∀ buf : List Char, V.length + 1 ≤ buf.length →
      (extract_json_string json K (V.length + 1)).value buf = V := by
  have hVnul : NUL ∉ V := fun h => (hV NUL h).2.2 rfl
  have hext := extract_items json K pre [] [] (V.map Item.plain) ('"' :: rest) (V.length + 1)
    (by rw [encode_items_plain, htext]; simp [quote])
    hfirst (by simp) (by simp)
    (by
      intro it hit
      obtain ⟨c, hc, rfl⟩ := List.mem_map.mp hit
      exact hV c hc)
    (Or.inr (Or.inr ⟨rest, rfl⟩)) (by omega) hsize
  rw [decode_items_plain, Nat.add_sub_cancel, List.take_of_length_le (le_refl _)] at hext
  rw [hext]
  refine ⟨rfl, rfl, ?_⟩
  intro buf hbuf
  exact value_of_writes V hVnul buf (by omega)

/-- C1, amended, at the text `{"a":"x","k":"v"}` with key `k` and value `v`. -/
theorem C1_first_occurrence_extracts_witness :
    search_pattern "k".toList = quote "k".toList ∧
    cstr "\x7b\"a\":\"x\",\"k\":\"v\"\x7d".toList
      = "\x7b\"a\":\"x\",".toList ++
        (search_pattern "k".toList ++ (':' :: (quote "v".toList ++ "\x7d".toList))) ∧
    first_at (search_pattern "k".toList) (cstr "\x7b\"a\":\"x\",\"k\":\"v\"\x7d".toList)
      "\x7b\"a\":\"x\",".toList.length ∧
    (extract_json_string "\x7b\"a\":\"x\",\"k\":\"v\"\x7d".toList "k".toList 2).ret = 0 ∧
    (extract_json_string "\x7b\"a\":\"x\",\"k\":\"v\"\x7d".toList "k".toList 2).writes
      = [(0, 'v'), (1, NUL)] :=
  have h := C1_first_occurrence_extracts "\x7b\"a\":\"x\",\"k\":\"v\"\x7d".toList "k".toList
    "v".toList "\x7b\"a\":\"x\",".toList "\x7d".toList (by decide) (by decide) (by decide)
    (by decide)
  ⟨by decide, by decide, by decide, h.1, h.2.1⟩

/-- The search fails exactly when the pattern does not occur in the text. -/
theorem strstr_eq_none_iff (pat text : List Char) : strstr text pat = none ↔ ¬ pat <:+: text := by
  constructor
  · intro h hin
    induction text with
    | nil =>
      have : pat = [] := List.eq_nil_of_infix_nil hin
      subst this
      simp [strstr] at h
    | cons c cs ih =>
      cases hp : pat.isPrefixOf (c :: cs) with
      | true => simp [strstr, hp] at h
      | false =>
        simp only [strstr, hp] at h
        rcases List.infix_cons_iff.mp hin with h1 | h1
        · rw [← List.isPrefixOf_iff_prefix] at h1
          rw [h1] at hp
          exact absurd hp (by decide)
        · exact ih (by simpa using h) h1
  · exact strstr_eq_none pat text

/-- A key of at most 253 characters whose quoted form is not in the text is not found. -/
theorem extract_absent_key (json key : List Char) (value_size : Nat) (hkey : NUL ∉ key)
    (hlen : key.length ≤ 253) (h : ¬ quote key <:+: cstr json) :
    extract_json_string json key value_size = ⟨Exit.KeyNotFound, []⟩ := by
  apply extract_key_not_found
  rw [search_pattern_eq_quote key hkey hlen]
  exact h

set_option maxRecDepth 100000 in
/-- C2, at a key of 254 characters: the search pattern is the opening quote and the key, with
no closing quote; the text holds that pattern but not the quoted key in full, and the call
returns 0 with the value `v` instead of -1. -/
theorem C2_long_key_pattern_is_cut :
    search_pattern (List.replicate 254 'a') = '"' :: List.replicate 254 'a' ∧
    search_pattern (List.replicate 254 'a') ≠ quote (List.replicate 254 'a') ∧
    ¬ quote (List.replicate 254 'a') <:+:
      cstr ('"' :: (List.replicate 254 'a' ++ "x\":\"v\"".toList)) ∧
    extract_json_string ('"' :: (List.replicate 254 'a' ++ "x\":\"v\"".toList))
      (List.replicate 254 'a') 8 = ⟨Exit.Success, [(0, 'v'), (1, NUL)]⟩ ∧
    (extract_json_string ('"' :: (List.replicate 254 'a' ++ "x\":\"v\"".toList))
      (List.replicate 254 'a') 8).ret = 0 :=
  ⟨by decide, by decide, (strstr_eq_none_iff _ _).mp (by decide), by decide, by decide⟩

/-- C3, as stated, fails: in `{"k":"abcdef"}` the value has 6 characters, more than
`max_len - 1 = 3`, and the call returns 0 with the shortened value `abc`. -/
theorem C3_counterexample :
    extract_json_string "\x7b\"k\":\"abcdef\"\x7d".toList "k".toList 4
      = ⟨Exit.Success, [(0, 'a'), (1, 'b'), (2, 'c'), (3, NUL)]⟩ ∧
    (extract_json_string "\x7b\"k\":\"abcdef\"\x7d".toList "k".toList 4).ret = 0 ∧
    (extract_json_string "\x7b\"k\":\"abcdef\"\x7d".toList "k".toList 4).value
      (List.replicate 4 NUL) = "abc".toList := by
  decide

/-- C3, amended: when the string value of the located field has more than `max_len - 1` items
(characters, an escape counting as one) and `max_len` is at least 1, `extract_json_string`
returns 0; it stores the first `max_len - 1` decoded characters at indices `0 .. max_len - 2` and
the terminator at index `max_len - 1`, so the output is the value cut to `max_len - 1`
characters. -/
theorem C3_long_value_is_cut (json key pre mid ws : List Char) (its : List Item)
    (rest : List Char) (max_len : Nat)
    (htext : cstr json = pre ++ (search_pattern key ++
      (mid ++ ':' :: (ws ++ '"' :: (encode_items its ++ rest)))))
    (hfirst : first_at (search_pattern key) (cstr json) pre.length)
    (hmid : ':' ∉ mid) (hws : ∀ c ∈ ws, isspace c = true) (hok : ∀ it ∈ its, it.ok)
    (h1 : 1 ≤ max_len) (h2 : max_len < 2 ^ 64) (hlong : max_len - 1 < its.length) :
    (extract_json_string json key max_len).ret = 0 ∧
    (extract_json_string json key max_len).writes =
      List.enumFrom 0 ((its.take (max_len - 1)).map Item.decode ++ [NUL]) ∧
    ∀ buf : List Char, max_len ≤ buf.length →
      (extract_json_string json key max_len).value buf = (its.take (max_len - 1)).map Item.decode := by
  have hext := extract_items json key pre mid ws its rest max_len htext hfirst hmid hws hok
    (Or.inl (by omega)) h1 h2
  rw [← List.map_take] at hext
  rw [hext]
  refine ⟨rfl, rfl, ?_⟩
  intro buf hbuf
  have hnul := decode_items_no_nul (its.take (max_len - 1))
    (fun it hit => hok it (List.mem_of_mem_take hit))
  refine value_of_writes _ hnul buf ?_
  rw [List.length_map, List.length_take]
  omega

/-- C3, amended, at the text `{"k":"abcdef"}` with key `k` and `max_len = 4`. -/
theorem C3_long_value_is_cut_witness :
    cstr "\x7b\"k\":\"abcdef\"\x7d".toList = "\x7b".toList ++ (search_pattern "k".toList ++
      ([] ++ ':' :: ([] ++ '"' :: (encode_items ("abcdef".toList.map Item.plain)
        ++ "\"\x7d".toList)))) ∧
    4 - 1 < ("abcdef".toList.map Item.plain).length ∧
    (extract_json_string "\x7b\"k\":\"abcdef\"\x7d".toList "k".toList 4).ret = 0 ∧
    (extract_json_string "\x7b\"k\":\"abcdef\"\x7d".toList "k".toList 4).writes
      = [(0, 'a'), (1, 'b'), (2, 'c'), (3, NUL)] :=
  have h := C3_long_value_is_cut "\x7b\"k\":\"abcdef\"\x7d".toList "k".toList "\x7b".toList
    [] [] ("abcdef".toList.map Item.plain) "\"\x7d".toList 4 (by decide) (by decide) (by decide)
    (by decide) (by decide) (by decide) (by decide) (by decide)
  ⟨by decide, by decide, h.1, h.2.1⟩

/-- C4, at `value_size = 0`: `value_size - 1` wraps around to `SIZE_MAX`, so on `{"k":"ab"}` the
call stores `a` at index 0, `b` at index 1 and the terminator at index 2, none of them below
`max_len = 0`. -/
theorem C4_zero_size_stores_out_of_bounds :
    size_sub 0 1 = 2 ^ 64 - 1 ∧
    extract_json_string "\x7b\"k\":\"ab\"\x7d".toList "k".toList 0
      = ⟨Exit.Success, [(0, 'a'), (1, 'b'), (2, NUL)]⟩ ∧
    ¬ ∀ p ∈ (extract_json_string "\x7b\"k\":\"ab\"\x7d".toList "k".toList 0).writes, p.1 < 0 := by
  decide

theorem encode_items_enc (v : List Char) : encode_items (v.map enc_item) = enc v := by
  induction v with
  | nil => rfl
  | cons c v ih =>
    simp only [List.map_cons, encode_items, enc, ih]
    congr 1
    unfold enc_item
    split
    · rfl
    · split <;> rfl

theorem decode_enc_item (c : Char) : (enc_item c).decode = c := by
  unfold enc_item
  split
  · next h => simp [Item.decode, h]
  · split
    · next h => subst h; decide
    · rfl

theorem decode_items_enc (v : List Char) : (v.map enc_item).map Item.decode = v := by
  induction v with
  | nil => rfl
  | cons c v ih => simpa [decode_enc_item] using ih

theorem enc_item_ok (c : Char) (h : c ≠ '"' ∧ c ≠ '\\' ∧ c ≠ NUL) : (enc_item c).ok := by
  unfold enc_item
  split
  · show 'n' ≠ NUL
    decide
  · split
    · show 't' ≠ NUL
      decide
    · exact h

/-- Round trip after the search pattern. For every value `V` without double quote, backslash or
NUL, every key `K` and every text in which the first occurrence of the search pattern is
followed by `:"enc(V)"`, where
`enc` writes a newline as backslash-n and a tab as backslash-t, `extract_json_string` with
`max_len > len(V)` returns 0, stores `V` and the terminator, and the output is exactly `V`.
The search pattern is the quoted key `"K"` for every key of at most 253 characters
(`search_pattern_eq_quote`). -/
theorem newline_tab_round_trip (json K V pre rest : List Char) (max_len : Nat)
    (hV : ∀ c ∈ V, c ≠ '"' ∧ c ≠ '\\' ∧ c ≠ NUL)
    (htext : cstr json = pre ++ (search_pattern K ++ (':' :: '"' :: (enc V ++ '"' :: rest))))
    (hfirst : first_at (search_pattern K) (cstr json) pre.length)
    (hfit : V.length < max_len) (hsize : max_len < 2 ^ 64) :
    (extract_json_string json K max_len).ret = 0 ∧
    (extract_json_string json K max_len).writes = List.enumFrom 0 (V ++ [NUL]) ∧
    ∀ buf : List Char, max_len ≤ buf.length → (extract_json_string json K max_len).value buf = V := by
  have hVnul : NUL ∉ V := fun h => (hV NUL h).2.2 rfl
  have hext := extract_items json K pre [] [] (V.map enc_item) ('"' :: rest) max_len
    (by rw [encode_items_enc, htext]; simp)
    hfirst (by simp) (by simp)
    (by
      intro it hit
      obtain ⟨c, hc, rfl⟩ := List.mem_map.mp hit
      exact enc_item_ok c (hV c hc))
    (Or.inr (Or.inr ⟨rest, rfl⟩)) (by omega) hsize
  rw [decode_items_enc, List.take_of_length_le (by omega)] at hext
  rw [hext]
  refine ⟨rfl, rfl, ?_⟩
  intro buf hbuf
  exact value_of_writes V hVnul buf (by omega)

/-- The round trip at the value `a`, newline, tab, `b` in the text `{"k":"a\n\tb"}`, with `max_len = 8`. -/
theorem newline_tab_round_trip_example :
    enc ['a', '\n', '\t', 'b'] = "a\\n\\tb".toList ∧
    cstr "\x7b\"k\":\"a\\n\\tb\"\x7d".toList = "\x7b".toList ++ (search_pattern "k".toList ++
      (':' :: '"' :: (enc ['a', '\n', '\t', 'b'] ++ '"' :: "\x7d".toList))) ∧
    first_at (search_pattern "k".toList) (cstr "\x7b\"k\":\"a\\n\\tb\"\x7d".toList)
      "\x7b".toList.length ∧
    (extract_json_string "\x7b\"k\":\"a\\n\\tb\"\x7d".toList "k".toList 8).ret = 0 ∧
    (extract_json_string "\x7b\"k\":\"a\\n\\tb\"\x7d".toList "k".toList 8).value
      (List.replicate 8 NUL) = ['a', '\n', '\t', 'b'] :=
  have h := newline_tab_round_trip "\x7b\"k\":\"a\\n\\tb\"\x7d".toList "k".toList
    ['a', '\n', '\t', 'b'] "\x7b".toList "\x7d".toList 8 (by decide) (by decide) (by decide)
    (by decide) (by decide)
  ⟨by decide, by decide, by decide, h.1, h.2.2 (List.replicate 8 NUL) (by decide)⟩

/-- C6, as stated, fails: in `{"k":"abc` the input ends before a closing quote, and the call
returns 0 with the partial value `abc`. -/
theorem C6_counterexample :
    extract_json_string "\x7b\"k\":\"abc".toList "k".toList 16
      = ⟨Exit.Success, [(0, 'a'), (1, 'b'), (2, 'c'), (3, NUL)]⟩ ∧
    (extract_json_string "\x7b\"k\":\"abc".toList "k".toList 16).ret = 0 ∧
    (extract_json_string "\x7b\"k\":\"abc".toList "k".toList 16).value
      (List.replicate 16 NUL) = "abc".toList := by
  decide

/-- C6, amended: when the located value is opened and the input ends before a closing unescaped
quote (the value is items, then possibly one last backslash, then the end), and the value fits
in `max_len - 1` characters, `extract_json_string` returns 0 and the output is the partial
value: the decoded items, and the last backslash as it is. -/
theorem C6_unterminated_value_succeeds (json key pre mid ws : List Char) (its : List Item)
    (last : List Char) (max_len : Nat)
    (htext : cstr json = pre ++ (search_pattern key ++
      (mid ++ ':' :: (ws ++ '"' :: (encode_items its ++ last)))))
    (hfirst : first_at (search_pattern key) (cstr json) pre.length)
    (hmid : ':' ∉ mid) (hws : ∀ c ∈ ws, isspace c = true) (hok : ∀ it ∈ its, it.ok)
    (hlast : last = [] ∨ last = ['\\'])
    (hfit : its.length + last.length < max_len) (hsize : max_len < 2 ^ 64) :
    (extract_json_string json key max_len).ret = 0 ∧
    (extract_json_string json key max_len).writes =
      List.enumFrom 0 (its.map Item.decode ++ last ++ [NUL]) ∧
    ∀ buf : List Char, max_len ≤ buf.length →
      (extract_json_string json key max_len).value buf = its.map Item.decode ++ last := by
  have hnul := decode_items_no_nul its hok
  rcases hlast with rfl | rfl
  · have hext := extract_items json key pre mid ws its [] max_len htext hfirst hmid hws hok
      (Or.inr (Or.inl rfl)) (by omega) hsize
    simp only [List.length_nil, Nat.add_zero] at hfit
    rw [List.take_of_length_le (by simp; omega)] at hext
    rw [hext, List.append_nil]
    refine ⟨rfl, rfl, ?_⟩
    intro buf hbuf
    exact value_of_writes _ hnul buf (by simp; omega)
  · simp only [List.length_singleton] at hfit
    have hext := extract_located json key pre mid ws _ max_len htext hfirst hmid hws
    rw [size_sub_one max_len (by omega) hsize,
      copy_loop_items (max_len - 1) its ['\\'] 0 [] hok (by omega),
      copy_loop_lone_backslash (max_len - 1) _ _ (by omega)] at hext
    have hw : (extract_json_string json key max_len).writes =
        List.enumFrom 0 (its.map Item.decode ++ ['\\'] ++ [NUL]) := by
      rw [hext]
      simp [List.enumFrom_append]
    have hr : (extract_json_string json key max_len).ret = 0 := by rw [hext]; rfl
    refine ⟨hr, hw, ?_⟩
    intro buf hbuf
    unfold Outcome.value
    rw [hw]
    refine value_of_writes _ ?_ buf (by simp; omega)
    intro h
    rcases List.mem_append.mp h with h | h
    · exact hnul h
    · simp only [List.mem_singleton] at h
      exact absurd h (by decide)

/-- C6, amended, at the text `{"k":"abc` with key `k` and `max_len = 16`. -/
theorem C6_unterminated_value_succeeds_witness :
    cstr "\x7b\"k\":\"abc".toList = "\x7b".toList ++ (search_pattern "k".toList ++
      ([] ++ ':' :: ([] ++ '"' :: (encode_items ("abc".toList.map Item.plain) ++ [])))) ∧
    (extract_json_string "\x7b\"k\":\"abc".toList "k".toList 16).ret = 0 ∧
    (extract_json_string "\x7b\"k\":\"abc".toList "k".toList 16).value (List.replicate 16 NUL)
      = ("abc".toList.map Item.plain).map Item.decode ++ [] :=
  have h := C6_unterminated_value_succeeds "\x7b\"k\":\"abc".toList "k".toList "\x7b".toList
    [] [] ("abc".toList.map Item.plain) [] 16 (by decide) (by decide) (by decide) (by decide)
    (by decide) (by decide) (by decide) (by decide)
  ⟨by decide, h.1, h.2.2 (List.replicate 16 NUL) (by decide)⟩

/-- When the search pattern is found, a colon follows, and after that colon
and any white space comes the end of input or a character that is not a double quote,
`extract_json_string` leaves by `return -1; // Not a string value`, storing nothing. -/
theorem not_a_string_after_pattern (json key pre mid ws rest : List Char) (value_size : Nat)
    (htext : cstr json = pre ++ (search_pattern key ++ (mid ++ ':' :: (ws ++ rest))))
    (hfirst : first_at (search_pattern key) (cstr json) pre.length)
    (hmid : ':' ∉ mid) (hws : ∀ c ∈ ws, isspace c = true)
    (hrest : rest = [] ∨ ∃ c t, rest = c :: t ∧ isspace c = false ∧ c ≠ '"') :
    extract_json_string json key value_size = ⟨Exit.NotAString, []⟩ ∧
    (extract_json_string json key value_size).ret = -1 := by
  have h1 := strstr_of_first_at (search_pattern key) (search_pattern_ne_nil key) _ _ hfirst
  rw [htext, List.drop_left] at h1
  have hmain : extract_json_string json key value_size = ⟨Exit.NotAString, []⟩ := by
    unfold extract_json_string
    simp only
    rw [show snprintf_quoted 256 key = search_pattern key from rfl, htext, h1]
    simp only [List.drop_left]
    rw [strchr_first ':' mid _ hmid]
    simp only [List.drop_succ_cons, List.drop_zero]
    rw [skip_space_append ws _ hws]
    rcases hrest with rfl | ⟨c, t, rfl, hsp, hq⟩
    · simp [skip_space]
    · rw [skip_space_stop c t hsp]
      simp [hq]
  exact ⟨hmain, by rw [hmain]; rfl⟩

/-- The text `{"k": 12}`: a number follows the colon and a space. -/
theorem not_a_string_after_pattern_example :
    cstr "\x7b\"k\": 12\x7d".toList = "\x7b".toList ++ (search_pattern "k".toList ++
      ([] ++ ':' :: (" ".toList ++ "12\x7d".toList))) ∧
    first_at (search_pattern "k".toList) (cstr "\x7b\"k\": 12\x7d".toList) "\x7b".toList.length ∧
    extract_json_string "\x7b\"k\": 12\x7d".toList "k".toList 16 = ⟨Exit.NotAString, []⟩ ∧
    (extract_json_string "\x7b\"k\": 12\x7d".toList "k".toList 16).ret = -1 :=
  have h := not_a_string_after_pattern "\x7b\"k\": 12\x7d".toList "k".toList "\x7b".toList [] " ".toList
    "12\x7d".toList 16 (by decide) (by decide) (by decide) (by decide)
    (Or.inr ⟨'1', "2\x7d".toList, by decide, by decide, by decide⟩)
  ⟨by decide, by decide, h.1, h.2⟩

/-- When the search pattern is found and no colon occurs between the end
of its first occurrence and the end of input, `extract_json_string` leaves by
`return -1; // Invalid JSON format`, storing nothing. -/
theorem no_colon_after_pattern (json key pre rest : List Char) (value_size : Nat)
    (htext : cstr json = pre ++ (search_pattern key ++ rest))
    (hfirst : first_at (search_pattern key) (cstr json) pre.length)
    (hrest : ':' ∉ rest) :
    extract_json_string json key value_size = ⟨Exit.MalformedField, []⟩ ∧
    (extract_json_string json key value_size).ret = -1 := by
  have h1 := strstr_of_first_at (search_pattern key) (search_pattern_ne_nil key) _ _ hfirst
  rw [htext, List.drop_left] at h1
  have hmain : extract_json_string json key value_size = ⟨Exit.MalformedField, []⟩ := by
    unfold extract_json_string
    simp only
    rw [show snprintf_quoted 256 key = search_pattern key from rfl, htext, h1]
    simp only [List.drop_left]
    rw [strchr_none ':' (by decide) rest hrest]
  exact ⟨hmain, by rw [hmain]; rfl⟩

/-- The text `{"a":"x","k"}`: colons before the key, none after it. -/
theorem no_colon_after_pattern_example :
    cstr "\x7b\"a\":\"x\",\"k\"\x7d".toList
      = "\x7b\"a\":\"x\",".toList ++ (search_pattern "k".toList ++ "\x7d".toList) ∧
    first_at (search_pattern "k".toList) (cstr "\x7b\"a\":\"x\",\"k\"\x7d".toList)
      "\x7b\"a\":\"x\",".toList.length ∧
    extract_json_string "\x7b\"a\":\"x\",\"k\"\x7d".toList "k".toList 16
      = ⟨Exit.MalformedField, []⟩ ∧
    (extract_json_string "\x7b\"a\":\"x\",\"k\"\x7d".toList "k".toList 16).ret = -1 :=
  have h := no_colon_after_pattern "\x7b\"a\":\"x\",\"k\"\x7d".toList "k".toList "\x7b\"a\":\"x\",".toList
    "\x7d".toList 16 (by decide) (by decide) (by decide)
  ⟨by decide, by decide, h.1, h.2⟩

/-- C9: escape decoding. When the located string value is a sequence of items (a plain character
that is no double quote, backslash or NUL; or a backslash and a non-NUL character) closed by an
unescaped double quote, and `max_len` exceeds the number of items, `extract_json_string` returns 0
and the output is the item-wise decoding: backslash-n gives newline, backslash-t gives tab,
backslash-c gives `c`, a plain character gives itself. -/
theorem C9_escape_decoding (json key pre mid ws : List Char) (its : List Item)
    (rest : List Char) (max_len : Nat)
    (htext : cstr json = pre ++ (search_pattern key ++
      (mid ++ ':' :: (ws ++ '"' :: (encode_items its ++ '"' :: rest)))))
    (hfirst : first_at (search_pattern key) (cstr json) pre.length)
    (hmid : ':' ∉ mid) (hws : ∀ c ∈ ws, isspace c = true) (hok : ∀ it ∈ its, it.ok)
    (hfit : its.length < max_len) (hsize : max_len < 2 ^ 64) :
    (extract_json_string json key max_len).ret = 0 ∧
    (extract_json_string json key max_len).writes =
      List.enumFrom 0 (its.map Item.decode ++ [NUL]) ∧
    ∀ buf : List Char, max_len ≤ buf.length →
      (extract_json_string json key max_len).value buf = its.map Item.decode := by
  have hext := extract_items json key pre mid ws its ('"' :: rest) max_len htext hfirst hmid hws
    hok (Or.inr (Or.inr ⟨rest, rfl⟩)) (by omega) hsize
  rw [List.take_of_length_le (by simp; omega)] at hext
  rw [hext]
  refine ⟨rfl, rfl, ?_⟩
  intro buf hbuf
  exact value_of_writes _ (decode_items_no_nul its hok) buf (by simp; omega)

/-- C9 at the text `{"Token":"abc\ndef"}`: the token is `abc`, newline, `def`. -/
theorem C9_escape_decoding_witness :
    cstr "\x7b\"Token\":\"abc\\ndef\"\x7d".toList = "\x7b".toList ++ (search_pattern "Token".toList ++
      ([] ++ ':' :: ([] ++ '"' :: (encode_items
        [Item.plain 'a', Item.plain 'b', Item.plain 'c', Item.esc 'n', Item.plain 'd',
          Item.plain 'e', Item.plain 'f'] ++ '"' :: "\x7d".toList)))) ∧
    first_at (search_pattern "Token".toList) (cstr "\x7b\"Token\":\"abc\\ndef\"\x7d".toList)
      "\x7b".toList.length ∧
    (extract_json_string "\x7b\"Token\":\"abc\\ndef\"\x7d".toList "Token".toList 2048).ret = 0 ∧
    (extract_json_string "\x7b\"Token\":\"abc\\ndef\"\x7d".toList "Token".toList 2048).writes
      = List.enumFrom 0 ['a', 'b', 'c', '\n', 'd', 'e', 'f', NUL] :=
  have h := C9_escape_decoding "\x7b\"Token\":\"abc\\ndef\"\x7d".toList "Token".toList
    "\x7b".toList [] []
    [Item.plain 'a', Item.plain 'b', Item.plain 'c', Item.esc 'n', Item.plain 'd',
      Item.plain 'e', Item.plain 'f'] "\x7d".toList 2048
    (by decide) (by decide) (by decide) (by decide) (by decide) (by decide) (by decide)
  ⟨by decide, by decide, h.1, h.2.1⟩

set_option maxRecDepth 100000 in
/-- C10: scenario A. On the buffer
`{"AccessKeyId":"AKIA123","SecretAccessKey":"secret","Token":"tok","Expiration":"2024-01-01T00:00:00Z"}`
the four extractions of the client return 0 and leave `AKIA123`, `secret`, `tok` and
`2024-01-01T00:00:00Z` in the buffers of sizes 256, 256, 2048 and 64. -/
theorem C10_scenario_A :
    (main_extractions scenario_A).access_key.1 = 0 ∧
    cstr (main_extractions scenario_A).access_key.2 = "AKIA123".toList ∧
    (main_extractions scenario_A).secret_key.1 = 0 ∧
    cstr (main_extractions scenario_A).secret_key.2 = "secret".toList ∧
    (main_extractions scenario_A).session_token.1 = 0 ∧
    cstr (main_extractions scenario_A).session_token.2 = "tok".toList ∧
    (main_extractions scenario_A).expiration.1 = 0 ∧
    cstr (main_extractions scenario_A).expiration.2 = "2024-01-01T00:00:00Z".toList ∧
    (main_extractions scenario_A).access_key.2.length = 256 ∧
    (main_extractions scenario_A).secret_key.2.length = 256 ∧
    (main_extractions scenario_A).session_token.2.length = 2048 ∧
    (main_extractions scenario_A).expiration.2.length = 64 := by
  refine ⟨by decide, by decide, by decide, by decide, by decide, by decide, by decide, by decide,
    ?_, ?_, ?_, ?_⟩ <;>
  simp [main_extractions, extract_into, store_length]

/-! ## Lemmas on the run of `extract_json_string` on any text -/

theorem strstr_suffix (pat : List Char) :
    ∀ text p : List Char, strstr text pat = some p → p <:+ text := by
  intro text
  induction text with
  | nil =>
    intro p h
    by_cases hp : pat.isEmpty = true
    · simp only [strstr, hp, if_true, Option.some.injEq] at h
      subst h
      exact List.suffix_refl _
    · simp [strstr, hp] at h
  | cons c cs ih =>
    intro p h
    cases hp : pat.isPrefixOf (c :: cs) with
    | true =>
      simp only [strstr, hp, if_true, Option.some.injEq] at h
      subst h
      exact List.suffix_refl _
    | false =>
      simp only [strstr, hp] at h
      exact (ih p (by simpa using h)).trans (List.suffix_cons c cs)

theorem strchr_suffix (c : Char) :
    ∀ s p : List Char, strchr s c = some p → p <:+ s := by
  intro s
  induction s with
  | nil =>
    intro p h
    by_cases hc : c = NUL
    · simp only [strchr, hc, if_true, Option.some.injEq] at h
      subst h
      exact List.suffix_refl _
    · simp [strchr, hc] at h
  | cons a s ih =>
    intro p h
    by_cases ha : a = c
    · subst ha
      simp only [strchr, if_true, Option.some.injEq] at h
      subst h
      exact List.suffix_refl _
    · simp only [strchr, ha, if_false] at h
      exact (ih p h).trans (List.suffix_cons a s)

theorem skip_space_suffix : ∀ s : List Char, skip_space s <:+ s := by
  intro s
  induction s with
  | nil => exact List.suffix_refl _
  | cons a s ih =>
    cases ha : isspace a with
    | true =>
      simp only [skip_space, ha, if_true]
      exact ih.trans (List.suffix_cons a s)
    | false =>
      simp only [skip_space, ha]
      exact List.suffix_refl _

/-- Every call either fails, with the same exit and no store whatever the size, or succeeds
whatever the size, its copying loop running on one and the same NUL-free text `body`. -/
theorem extract_cases (json key : List Char) :
    (∃ e : Exit, e ≠ Exit.Success ∧
      ∀ n : Nat, extract_json_string json key n = ⟨e, []⟩) ∨
    (∃ body : List Char, NUL ∉ body ∧
      ∀ n : Nat, extract_json_string json key n =
        ⟨Exit.Success, (copy_loop (size_sub n 1) body 0 []).2 ++
          [((copy_loop (size_sub n 1) body 0 []).1, NUL)]⟩) := by
  unfold extract_json_string
  simp only
  cases h1 : strstr (cstr json) (snprintf_quoted 256 key) with
  | none => exact Or.inl ⟨Exit.KeyNotFound, by decide, fun _ => rfl⟩
  | some p =>
    simp only
    cases h2 : strchr (p.drop (snprintf_quoted 256 key).length) ':' with
    | none => exact Or.inl ⟨Exit.MalformedField, by decide, fun _ => rfl⟩
    | some q =>
      simp only
      cases h3 : skip_space (q.drop 1) with
      | nil => exact Or.inl ⟨Exit.NotAString, by decide, fun _ => rfl⟩
      | cons c body =>
        simp only
        by_cases hc : c = '"'
        · right
          refine ⟨body, ?_, fun n => by simp [hc]⟩
          have s1 : p <:+ cstr json := strstr_suffix _ _ _ h1
          have s2 : q <:+ p.drop (snprintf_quoted 256 key).length := strchr_suffix _ _ _ h2
          have s3 : c :: body <:+ q.drop 1 := by
            have := skip_space_suffix (q.drop 1)
            rwa [h3] at this
          have s4 : body <:+ cstr json :=
            (List.suffix_cons c body).trans
              (s3.trans ((List.drop_suffix 1 q).trans
                (s2.trans ((List.drop_suffix _ p).trans s1))))
          intro hn
          exact cstr_no_nul json (s4.subset hn)
        · exact Or.inl ⟨Exit.NotAString, by decide, fun n => by simp [hc]⟩

theorem unescape_ne_nul (d : Char) (h : d ≠ NUL) : unescape d ≠ NUL := by
  unfold unescape
  split
  · decide
  · split
    · decide
    · exact h

/-- The copying loop stores the first `limit - i` characters of `decoded s`. -/
theorem copy_loop_eq_decoded (limit : Nat) :
    ∀ (k : Nat) (s : List Char) (i : Nat) (w : List (Nat × Char)), s.length ≤ k →
      copy_loop limit s i w =
        (i + min (decoded s).length (limit - i),
          w ++ List.enumFrom i ((decoded s).take (limit - i))) := by
  intro k
  induction k with
  | zero =>
    intro s i w hs
    have : s = [] := List.length_eq_zero.mp (Nat.le_zero.mp hs)
    subst this
    simp [copy_loop, decoded]
  | succ k ih =>
    intro s i w hs
    by_cases hi : limit ≤ i
    · rw [copy_loop_full limit s i w (by omega)]
      simp [Nat.sub_eq_zero_of_le hi]
    have hlt : i < limit := by omega
    have hsub : limit - i = (limit - (i + 1)) + 1 := by omega
    match s, hs with
    | [], _ => simp [copy_loop, decoded]
    | [c], _ =>
      by_cases hq : c = '"'
      · simp [copy_loop, decoded, hq]
      · simp only [copy_loop, decoded, hq, if_false, hlt, not_true_eq_false]
        rw [hsub]
        simp
    | c :: d :: rest, hs =>
      simp only [List.length_cons] at hs
      by_cases hq : c = '"'
      · simp [copy_loop, decoded, hq]
      · by_cases hb : c = '\\'
        · subst hb
          simp only [copy_loop, decoded, show ¬ ('\\' : Char) = '"' by decide, if_false, if_true,
            hlt, not_true_eq_false]
          rw [ih rest (i + 1) _ (by omega), hsub]
          simp only [List.length_cons, List.take_succ_cons, List.enumFrom_cons, List.append_assoc,
            List.singleton_append, Prod.mk.injEq, and_true]
          omega
        · simp only [copy_loop, decoded, hq, hb, if_false, hlt, not_true_eq_false]
          rw [ih (d :: rest) (i + 1) _ (by simp; omega), hsub]
          simp only [List.length_cons, List.take_succ_cons, List.enumFrom_cons, List.append_assoc,
            List.singleton_append, Prod.mk.injEq, and_true]
          omega

theorem decoded_no_nul : ∀ (k : Nat) (s : List Char), s.length ≤ k → NUL ∉ s → NUL ∉ decoded s := by
  intro k
  induction k with
  | zero =>
    intro s hs _
    have : s = [] := List.length_eq_zero.mp (Nat.le_zero.mp hs)
    subst this
    simp [decoded]
  | succ k ih =>
    intro s hs hn
    match s, hs, hn with
    | [], _, _ => simp [decoded]
    | [c], _, hn =>
      simp only [decoded]
      split
      · simp
      · simpa using hn
    | c :: d :: rest, hs, hn =>
      simp only [List.length_cons] at hs
      have hc : c ≠ NUL := fun e => hn (by simp [e])
      have hd : d ≠ NUL := fun e => hn (by simp [e])
      have hr : NUL ∉ rest := fun e => hn (by simp [e])
      have hdr : NUL ∉ d :: rest := fun e => hn (List.mem_cons_of_mem _ e)
      simp only [decoded]
      split
      · simp
      · split
        · intro h
          rcases List.mem_cons.mp h with h | h
          · exact unescape_ne_nul d hd h.symm
          · exact ih rest (by omega) hr h
        · intro h
          rcases List.mem_cons.mp h with h | h
          · exact hc h.symm
          · exact ih (d :: rest) (by simp; omega) hdr h

/-- For a size from 1 up, a call either fails with no store, or succeeds and stores the first
`value_size - 1` characters of one NUL-free value, the same for every size, and the terminator. -/
theorem extract_cases_decoded (json key : List Char) :
    (∃ e : Exit, e ≠ Exit.Success ∧
      ∀ n : Nat, extract_json_string json key n = ⟨e, []⟩) ∨
    (∃ v : List Char, NUL ∉ v ∧
      ∀ n : Nat, 1 ≤ n → n < 2 ^ 64 → extract_json_string json key n =
        ⟨Exit.Success, List.enumFrom 0 (v.take (n - 1) ++ [NUL])⟩) := by
  rcases extract_cases json key with h | ⟨body, hb, h⟩
  · exact Or.inl h
  · right
    refine ⟨decoded body, decoded_no_nul body.length body (le_refl _) hb, ?_⟩
    intro n h1 h2
    rw [h n, size_sub_one n h1 h2, copy_loop_eq_decoded (n - 1) body.length body 0 [] (le_refl _)]
    simp only [Nat.sub_zero, List.nil_append, Nat.zero_add, List.enumFrom_append,
      List.length_take, List.enumFrom_singleton]
    rw [Nat.min_comm]

/-! ## Lemmas on `main` -/

/-- A failed call leaves a zero-initialised buffer as it is. -/
theorem extract_into_of_fail (buffer key : List Char) (size : Nat) (e : Exit)
    (he : e ≠ Exit.Success) (h : extract_json_string buffer key size = ⟨e, []⟩) :
    extract_into buffer key size = (-1, List.replicate size NUL) := by
  unfold extract_into
  rw [h]
  cases e <;> first | exact absurd rfl he | rfl

/-- With the socket created and connected and the request written, `main` closes the socket
after its read and extracts from what the read delivered. -/
theorem main_of_read (env : Env) (data : List Char) (hs : 0 ≤ env.socket)
    (hc : 0 ≤ env.connect) (hw : 0 ≤ env.write) (hr : env.read = some data) :
    main env = ⟨0, [Call.socket, Call.connect, Call.write, Call.read, Call.close],
      some (main_extractions (received_buffer data))⟩ := by
  unfold main
  rw [if_neg (by omega), if_neg (by omega), if_neg (by omega), hr]

/-! ## The claims on the client -/

set_option maxRecDepth 100000 in
/-- C11: empty or field-less response. When the socket is created and connected, the write
reports no error and the single read delivers zero bytes or `{}`, each of the four extractions
leaves by `return -1; // Key not found`, the four buffers stay zero-filled (all four fields
absent), and `main` still returns 0. -/
theorem C11_empty_response (env : Env) (data : List Char) (hs : 0 ≤ env.socket)
    (hc : 0 ≤ env.connect) (hw : 0 ≤ env.write) (hr : env.read = some data)
    (hdata : data = [] ∨ data = "\x7b\x7d".toList) :
    (main env).status = 0 ∧
    extract_json_string (received_buffer data) "AccessKeyId".toList 256
      = ⟨Exit.KeyNotFound, []⟩ ∧
    extract_json_string (received_buffer data) "SecretAccessKey".toList 256
      = ⟨Exit.KeyNotFound, []⟩ ∧
    extract_json_string (received_buffer data) "Token".toList 2048
      = ⟨Exit.KeyNotFound, []⟩ ∧
    extract_json_string (received_buffer data) "Expiration".toList 64
      = ⟨Exit.KeyNotFound, []⟩ ∧
    (main env).extracted = some
      { access_key := (-1, List.replicate 256 NUL)
        secret_key := (-1, List.replicate 256 NUL)
        session_token := (-1, List.replicate 2048 NUL)
        expiration := (-1, List.replicate 64 NUL) } := by
  rw [main_of_read env data hs hc hw hr]
  have key : ∀ d : List Char, cstr (received_buffer d) = [] ∨
      cstr (received_buffer d) = "\x7b\x7d".toList →
      ∀ (k : List Char) (n : Nat), k.length ≤ 253 → NUL ∉ k → k ≠ [] →
        extract_json_string (received_buffer d) k n = ⟨Exit.KeyNotFound, []⟩ := by
    intro d hd k n hk hnul hne
    apply extract_absent_key _ _ _ hnul hk
    intro hin
    rcases hd with hd | hd
    · rw [hd] at hin
      have := List.eq_nil_of_infix_nil hin
      simp [quote] at this
    · rw [hd] at hin
      obtain ⟨a, b, hab⟩ := hin
      have hlen := congrArg List.length hab
      simp only [quote, List.length_append, List.length_cons, List.length_nil,
        String.toList, List.length_singleton] at hlen
      have h2 : ("\x7b\x7d" : String).data.length = 2 := by decide
      have hk0 : 0 < k.length := List.length_pos.mpr hne
      omega
  have hbuf : cstr (received_buffer data) = [] ∨
      cstr (received_buffer data) = "\x7b\x7d".toList := by
    rcases hdata with rfl | rfl
    · exact Or.inl (by decide)
    · exact Or.inr (by decide)
  have e1 := key data hbuf "AccessKeyId".toList 256 (by decide) (by decide) (by decide)
  have e2 := key data hbuf "SecretAccessKey".toList 256 (by decide) (by decide) (by decide)
  have e3 := key data hbuf "Token".toList 2048 (by decide) (by decide) (by decide)
  have e4 := key data hbuf "Expiration".toList 64 (by decide) (by decide) (by decide)
  refine ⟨rfl, e1, e2, e3, e4, ?_⟩
  simp only [main_extractions]
  rw [extract_into_of_fail _ _ _ _ (by decide) e1, extract_into_of_fail _ _ _ _ (by decide) e2,
    extract_into_of_fail _ _ _ _ (by decide) e3, extract_into_of_fail _ _ _ _ (by decide) e4]

/-- C11 at a run whose read delivers zero bytes. -/
theorem C11_empty_response_witness :
    (main ⟨3, 0, 54, some []⟩).status = 0 ∧
    (main ⟨3, 0, 54, some []⟩).extracted = some
      { access_key := (-1, List.replicate 256 NUL)
        secret_key := (-1, List.replicate 256 NUL)
        session_token := (-1, List.replicate 2048 NUL)
        expiration := (-1, List.replicate 64 NUL) } :=
  have h := C11_empty_response ⟨3, 0, 54, some []⟩ [] (by decide) (by decide) (by decide) rfl
    (Or.inl rfl)
  ⟨h.1, h.2.2.2.2.2⟩

/-- C12, as stated, fails: when `write` returns 0 or 10, fewer than the 54 bytes of the
request, `main` goes on to read the response and returns 0. -/
theorem C12_counterexample :
    request.length = 54 ∧
    (main ⟨3, 0, 0, some scenario_A⟩).status = 0 ∧
    Call.read ∈ (main ⟨3, 0, 0, some scenario_A⟩).calls ∧
    (main ⟨3, 0, 10, some scenario_A⟩).status = 0 ∧
    Call.read ∈ (main ⟨3, 0, 10, some scenario_A⟩).calls := by
  decide

/-- C12, amended: with the socket created and connected, `main` fails on the write (status 1,
the socket closed, no read, no extraction) exactly when `write` returns a negative value; when
`write` returns a count, also one smaller than the length of the request, `main` goes on to
read the response. -/
theorem C12_only_negative_write_fails (env : Env) (hs : 0 ≤ env.socket) (hc : 0 ≤ env.connect) :
    (env.write < 0 →
      (main env).status = 1 ∧
      (main env).calls = [Call.socket, Call.connect, Call.write, Call.close] ∧
      (main env).extracted = none) ∧
    (0 ≤ env.write →
      (main env).calls = [Call.socket, Call.connect, Call.write, Call.read, Call.close]) := by
  constructor
  · intro hw
    unfold main
    rw [if_neg (by omega), if_neg (by omega), if_pos hw]
    exact ⟨rfl, rfl, rfl⟩
  · intro hw
    unfold main
    rw [if_neg (by omega), if_neg (by omega), if_neg (by omega)]
    cases env.read <;> rfl

/-- C12, amended, at a run whose write returns 10 of the 54 bytes. -/
theorem C12_only_negative_write_fails_witness :
    (10 : Int) < request.length ∧
    (main ⟨3, 0, 10, some scenario_A⟩).calls
      = [Call.socket, Call.connect, Call.write, Call.read, Call.close] :=
  ⟨by decide,
    (C12_only_negative_write_fails ⟨3, 0, 10, some scenario_A⟩ (by decide) (by decide)).2
      (by decide)⟩

/-- C13: in every run, whatever the system calls return, `main` makes its calls in the order
socket, connect, write, read, close, each at most once; when the socket was created it makes
exactly one `close`, as its last call; when it was not, there is nothing to close and `socket`
is its only call. -/
theorem C13_one_close_on_every_path (env : Env) :
    List.Sublist (main env).calls
      [Call.socket, Call.connect, Call.write, Call.read, Call.close] ∧
    (main env).calls.count Call.close = (if env.socket < 0 then 0 else 1) ∧
    (main env).calls.getLast? = some (if env.socket < 0 then Call.socket else Call.close) := by
  unfold main
  by_cases hs : env.socket < 0
  · simp only [hs, if_true]
    decide
  · by_cases hc : env.connect < 0
    · simp only [hs, hc, if_true, if_false]
      decide
    · by_cases hw : env.write < 0
      · simp only [hs, hc, hw, if_true, if_false]
        decide
      · simp only [hs, hc, hw, if_false]
        cases env.read with
        | none => decide
        | some data =>
          simp only
          decide

/-- C14: with the socket created, if `connect` fails, or `write` reports an error, or `read`
reports an error, `main` returns 1, its last call being the `close`, and makes no extraction
and no credential output. -/
theorem C14_transport_error_aborts (env : Env) (hs : 0 ≤ env.socket)
    (hfail : env.connect < 0 ∨ env.write < 0 ∨ env.read = none) :
    (main env).status = 1 ∧ (main env).status ≠ 0 ∧
    (main env).extracted = none ∧
    (main env).calls.getLast? = some Call.close := by
  unfold main
  rw [if_neg (by omega)]
  by_cases hc : env.connect < 0
  · rw [if_pos hc]
    decide
  · rw [if_neg hc]
    by_cases hw : env.write < 0
    · rw [if_pos hw]
      decide
    · rw [if_neg hw]
      rcases hfail with h | h | h
      · exact absurd h hc
      · exact absurd h hw
      · rw [h]
        decide

/-- C14 at three runs: `connect` fails; `write` fails; `read` fails. -/
theorem C14_transport_error_aborts_witness :
    ((main ⟨3, -1, 54, some scenario_A⟩).status = 1 ∧
      (main ⟨3, -1, 54, some scenario_A⟩).extracted = none) ∧
    ((main ⟨3, 0, -1, some scenario_A⟩).status = 1 ∧
      (main ⟨3, 0, -1, some scenario_A⟩).extracted = none) ∧
    ((main ⟨3, 0, 54, none⟩).status = 1 ∧ (main ⟨3, 0, 54, none⟩).extracted = none) :=
  have h1 := C14_transport_error_aborts ⟨3, -1, 54, some scenario_A⟩ (by decide)
    (Or.inl (by decide))
  have h2 := C14_transport_error_aborts ⟨3, 0, -1, some scenario_A⟩ (by decide)
    (Or.inr (Or.inl (by decide)))
  have h3 := C14_transport_error_aborts ⟨3, 0, 54, none⟩ (by decide) (Or.inr (Or.inr rfl))
  ⟨⟨h1.1, h1.2.2.1⟩, ⟨h2.1, h2.2.2.1⟩, ⟨h3.1, h3.2.2.1⟩⟩

/-! ## The claims on escapes, white space, failure and the cap -/

theorem encode_items_append (a b : List Item) :
    encode_items (a ++ b) = encode_items a ++ encode_items b := by
  induction a with
  | nil => rfl
  | cons x a ih => simp [encode_items, ih]

theorem isPrefixOf_append_right :
    ∀ (pat a z : List Char), pat.length ≤ a.length → pat.isPrefixOf (a ++ z) = pat.isPrefixOf a := by
  intro pat
  induction pat with
  | nil => intro a z _; simp [List.isPrefixOf]
  | cons p pat ih =>
    intro a z h
    cases a with
    | nil => simp at h
    | cons x a =>
      simp only [List.length_cons, Nat.add_le_add_iff_right] at h
      simp only [List.cons_append, List.isPrefixOf]
      rw [show a.append z = a ++ z from rfl, ih a z h]

/-- Where a pattern first occurs does not depend on what follows that occurrence. -/
theorem first_at_congr (pat pre x y : List Char)
    (h : first_at pat (pre ++ (pat ++ x)) pre.length) :
    first_at pat (pre ++ (pat ++ y)) pre.length := by
  obtain ⟨-, hlt⟩ := h
  constructor
  · rw [List.drop_left, List.isPrefixOf_iff_prefix]
    exact List.prefix_append pat y
  · intro i hi
    have h0 := hlt i hi
    have e : ∀ z : List Char, List.drop i (pre ++ (pat ++ z)) = (List.drop i pre ++ pat) ++ z := by
      intro z
      rw [List.drop_append_of_le_length (by omega), List.append_assoc]
    have hl : pat.length ≤ (List.drop i pre ++ pat).length := by simp
    rw [e, isPrefixOf_append_right pat _ x hl] at h0
    rw [e, isPrefixOf_append_right pat _ y hl]
    exact h0

/-- C15, as stated, fails: in `{"k":"ab\"cd"}` the escaped quote is restored; the output is
`ab"cd`, the literal double quote in its place and the characters up to the closing quote after
it. -/
theorem C15_counterexample :
    (extract_json_string "\x7b\"k\":\"ab\\\"cd\"\x7d".toList "k".toList 16).ret = 0 ∧
    (extract_json_string "\x7b\"k\":\"ab\\\"cd\"\x7d".toList "k".toList 16).value
      (List.replicate 16 NUL) = ['a', 'b', '"', 'c', 'd'] := by
  decide

/-- C15, amended: when the located string value is items, then a backslash and a double quote,
then items, closed by an unescaped double quote, and it fits in `max_len - 1` characters,
`extract_json_string` returns 0 and the output is the decoded items before, a literal double
quote, and the decoded items after: the escaped quote is restored. -/
theorem C15_escaped_quote_is_restored (json key pre mid ws : List Char) (its1 its2 : List Item)
    (rest : List Char) (max_len : Nat)
    (htext : cstr json = pre ++ (search_pattern key ++ (mid ++ ':' :: (ws ++ '"' ::
      (encode_items its1 ++ ('\\' :: '"' :: (encode_items its2 ++ '"' :: rest)))))))
    (hfirst : first_at (search_pattern key) (cstr json) pre.length)
    (hmid : ':' ∉ mid) (hws : ∀ c ∈ ws, isspace c = true)
    (hok1 : ∀ it ∈ its1, it.ok) (hok2 : ∀ it ∈ its2, it.ok)
    (hfit : its1.length + 1 + its2.length < max_len) (hsize : max_len < 2 ^ 64) :
    (extract_json_string json key max_len).ret = 0 ∧
    ∀ buf : List Char, max_len ≤ buf.length →
      (extract_json_string json key max_len).value buf
        = its1.map Item.decode ++ '"' :: its2.map Item.decode := by
  have hok : ∀ it ∈ its1 ++ (Item.esc '"' :: its2), it.ok := by
    intro it hit
    rcases List.mem_append.mp hit with h | h
    · exact hok1 it h
    · rcases List.mem_cons.mp h with h | h
      · subst h
        show '"' ≠ NUL
        decide
      · exact hok2 it h
  have hext := extract_items json key pre mid ws (its1 ++ (Item.esc '"' :: its2)) ('"' :: rest)
    max_len
    (by rw [htext, encode_items_append]; simp [encode_items, Item.encode])
    hfirst hmid hws hok (Or.inr (Or.inr ⟨rest, rfl⟩)) (by omega) hsize
  rw [List.take_of_length_le (by simp; omega)] at hext
  have hdec : (its1 ++ (Item.esc '"' :: its2)).map Item.decode
      = its1.map Item.decode ++ '"' :: its2.map Item.decode := by
    simp [Item.decode]
  rw [hext]
  refine ⟨rfl, ?_⟩
  intro buf hbuf
  rw [← hdec]
  exact value_of_writes _ (decode_items_no_nul _ hok) buf (by simp; omega)

/-- C15, amended, at the text `{"k":"ab\"cd"}` with key `k` and `max_len = 16`. -/
theorem C15_escaped_quote_is_restored_witness :
    cstr "\x7b\"k\":\"ab\\\"cd\"\x7d".toList = "\x7b".toList ++ (search_pattern "k".toList ++
      ([] ++ ':' :: ([] ++ '"' :: (encode_items [Item.plain 'a', Item.plain 'b'] ++
        ('\\' :: '"' :: (encode_items [Item.plain 'c', Item.plain 'd'] ++ '"' :: "\x7d".toList)))))) ∧
    (extract_json_string "\x7b\"k\":\"ab\\\"cd\"\x7d".toList "k".toList 16).ret = 0 ∧
    (extract_json_string "\x7b\"k\":\"ab\\\"cd\"\x7d".toList "k".toList 16).value
      (List.replicate 16 NUL) = ['a', 'b', '"', 'c', 'd'] :=
  have h := C15_escaped_quote_is_restored "\x7b\"k\":\"ab\\\"cd\"\x7d".toList "k".toList
    "\x7b".toList [] [] [Item.plain 'a', Item.plain 'b'] [Item.plain 'c', Item.plain 'd']
    "\x7d".toList 16 (by decide) (by decide) (by decide) (by decide) (by decide) (by decide)
    (by decide) (by decide)
  ⟨by decide, h.1, h.2 (List.replicate 16 NUL) (by decide)⟩

/-- White space after the colon is skipped. For every text in which the first occurrence of
the search pattern is followed, after colon-free characters, by a colon, every
key and every `value_size`, inserting a run of `isspace` characters (space, tab, newline,
carriage return, vertical tab, form feed) right after that colon leaves the outcome of
`extract_json_string`, its return value and every store, unchanged. -/
theorem whitespace_after_colon_skipped (json json2 key pre mid ws rest : List Char)
    (value_size : Nat)
    (htext : cstr json = pre ++ (search_pattern key ++ (mid ++ ':' :: rest)))
    (htext2 : cstr json2 = pre ++ (search_pattern key ++ (mid ++ ':' :: (ws ++ rest))))
    (hfirst : first_at (search_pattern key) (cstr json) pre.length)
    (hmid : ':' ∉ mid) (hws : ∀ c ∈ ws, isspace c = true) :
    extract_json_string json2 key value_size = extract_json_string json key value_size := by
  have hfirst2 : first_at (search_pattern key) (cstr json2) pre.length := by
    rw [htext] at hfirst
    rw [htext2]
    exact first_at_congr _ _ _ _ hfirst
  have h1 := strstr_of_first_at (search_pattern key) (search_pattern_ne_nil key) _ _ hfirst
  have h2 := strstr_of_first_at (search_pattern key) (search_pattern_ne_nil key) _ _ hfirst2
  rw [htext, List.drop_left] at h1
  rw [htext2, List.drop_left] at h2
  unfold extract_json_string
  simp only
  rw [show snprintf_quoted 256 key = search_pattern key from rfl, htext, htext2, h1, h2]
  simp only [List.drop_left]
  rw [strchr_first ':' mid _ hmid, strchr_first ':' mid _ hmid]
  simp only [List.drop_succ_cons, List.drop_zero]
  rw [skip_space_append ws _ hws]

/-- The texts `{"k":"v"}` and `{"k": \t"v"}`. -/
theorem whitespace_after_colon_example :
    cstr "\x7b\"k\": \t\"v\"\x7d".toList = "\x7b".toList ++ (search_pattern "k".toList ++
      ([] ++ ':' :: ([' ', '\t'] ++ "\"v\"\x7d".toList))) ∧
    extract_json_string "\x7b\"k\": \t\"v\"\x7d".toList "k".toList 8
      = extract_json_string "\x7b\"k\":\"v\"\x7d".toList "k".toList 8 ∧
    extract_json_string "\x7b\"k\":\"v\"\x7d".toList "k".toList 8
      = ⟨Exit.Success, [(0, 'v'), (1, NUL)]⟩ :=
  ⟨by decide,
    whitespace_after_colon_skipped "\x7b\"k\":\"v\"\x7d".toList "\x7b\"k\": \t\"v\"\x7d".toList
      "k".toList "\x7b".toList [] [' ', '\t'] "\"v\"\x7d".toList 8 (by decide) (by decide)
      (by decide) (by decide) (by decide),
    by decide⟩

/-- C17: atomicity on failure. Whenever `extract_json_string` returns -1 it has made no store,
so any output buffer is as it was on entry; in the client, a zero-initialised buffer whose
extraction failed is still all zero. -/
theorem C17_failure_leaves_buffer (json key : List Char) (value_size : Nat)
    (h : (extract_json_string json key value_size).ret = -1) :
    (extract_json_string json key value_size).writes = [] ∧
    (∀ buf : List Char, store buf (extract_json_string json key value_size).writes = buf) ∧
    extract_into json key value_size = (-1, List.replicate value_size NUL) := by
  rcases extract_cases json key with ⟨e, he, hall⟩ | ⟨body, _, hall⟩
  · have hw : (extract_json_string json key value_size).writes = [] := by rw [hall]
    refine ⟨hw, ?_, extract_into_of_fail json key value_size e he (hall value_size)⟩
    intro buf
    rw [hw]
    rfl
  · rw [hall] at h
    simp [Outcome.ret] at h

/-- C17 at the text `{"k": 12}`, whose value is not a string. -/
theorem C17_failure_leaves_buffer_witness :
    (extract_json_string "\x7b\"k\": 12\x7d".toList "k".toList 16).ret = -1 ∧
    (extract_json_string "\x7b\"k\": 12\x7d".toList "k".toList 16).writes = [] ∧
    extract_into "\x7b\"k\": 12\x7d".toList "k".toList 16 = (-1, List.replicate 16 NUL) :=
  have h := C17_failure_leaves_buffer "\x7b\"k\": 12\x7d".toList "k".toList 16 (by decide)
  ⟨by decide, h.1, h.2.2⟩

/-- C18: monotonicity in the cap. The exit of `extract_json_string` is the same for every
`max_len`; and for `1 ≤ m1 ≤ m2`, if the call with `max_len = m2` returns 0 with value `v`, the
call with `max_len = m1` returns 0 with the first `min(len(v), m1 - 1)` characters of `v`. -/
theorem C18_cap_monotone (json key : List Char) (m1 m2 : Nat)
    (h1 : 1 ≤ m1) (h12 : m1 ≤ m2) (h2 : m2 < 2 ^ 64) :
    (∀ a b : Nat, (extract_json_string json key a).exit = (extract_json_string json key b).exit) ∧
    ((extract_json_string json key m2).ret = 0 →
      (extract_json_string json key m1).ret = 0 ∧
      ∀ buf1 buf2 : List Char, m1 ≤ buf1.length → m2 ≤ buf2.length →
        (extract_json_string json key m1).value buf1 =
          ((extract_json_string json key m2).value buf2).take
            (min ((extract_json_string json key m2).value buf2).length (m1 - 1))) := by
  constructor
  · intro a b
    rcases extract_cases json key with ⟨e, _, hall⟩ | ⟨body, _, hall⟩
    · rw [hall a, hall b]
    · rw [hall a, hall b]
  · intro hret
    rcases extract_cases_decoded json key with ⟨e, he, hall⟩ | ⟨v, hv, hall⟩
    · rw [hall m2] at hret
      cases e <;> first | exact absurd rfl he | exact absurd hret (by decide)
    · have e1 := hall m1 h1 (by omega)
      have e2 := hall m2 (by omega) h2
      refine ⟨by rw [e1]; rfl, ?_⟩
      intro buf1 buf2 hb1 hb2
      have hn1 : NUL ∉ v.take (m1 - 1) := fun h => hv (List.mem_of_mem_take h)
      have hn2 : NUL ∉ v.take (m2 - 1) := fun h => hv (List.mem_of_mem_take h)
      have v1 : (extract_json_string json key m1).value buf1 = v.take (m1 - 1) := by
        unfold Outcome.value
        rw [e1]
        exact value_of_writes _ hn1 buf1 (by rw [List.length_take]; omega)
      have v2 : (extract_json_string json key m2).value buf2 = v.take (m2 - 1) := by
        unfold Outcome.value
        rw [e2]
        exact value_of_writes _ hn2 buf2 (by rw [List.length_take]; omega)
      rw [v1, v2, List.take_take, List.length_take, List.take_eq_take]
      omega

/-- C18 at the text `{"k":"abcdef"}` with `m1 = 4` and `m2 = 16`. -/
theorem C18_cap_monotone_witness :
    (extract_json_string "\x7b\"k\":\"abcdef\"\x7d".toList "k".toList 16).ret = 0 ∧
    (extract_json_string "\x7b\"k\":\"abcdef\"\x7d".toList "k".toList 16).value
      (List.replicate 16 NUL) = "abcdef".toList ∧
    (extract_json_string "\x7b\"k\":\"abcdef\"\x7d".toList "k".toList 4).ret = 0 ∧
    (extract_json_string "\x7b\"k\":\"abcdef\"\x7d".toList "k".toList 4).value
      (List.replicate 4 NUL) =
        ((extract_json_string "\x7b\"k\":\"abcdef\"\x7d".toList "k".toList 16).value
          (List.replicate 16 NUL)).take
          (min ((extract_json_string "\x7b\"k\":\"abcdef\"\x7d".toList "k".toList 16).value
            (List.replicate 16 NUL)).length (4 - 1)) :=
  have h := (C18_cap_monotone "\x7b\"k\":\"abcdef\"\x7d".toList "k".toList 4 16 (by decide)
    (by decide) (by decide)).2 (by decide)
  ⟨by decide, by decide, h.1, h.2 (List.replicate 4 NUL) (List.replicate 16 NUL) (by decide)
    (by decide)⟩

/-! ## The claims that meet the cut search pattern

For a key of more than 253 characters the search pattern is not the quoted key but its first
255 characters (see `C2_long_key_pattern_is_cut`). The theorems of this section evaluate the
call on texts in which that pattern occurs before the quoted key does. -/

set_option maxRecDepth 100000 in
/-- C5, at a key of 254 characters: in `{"aaa...ax":"zzz","aaa...a":"a\nb"}` the quoted key first
occurs as the key of the second field, which holds `enc` of `a`, newline, `b`, and `max_len = 8`
exceeds the length 3 of that value; yet the cut pattern matches inside the first field and the
call returns 0 with `zzz`, not with the round-tripped value. -/
theorem C5_round_trip_lost_for_long_key :
    search_pattern long_key ≠ quote long_key ∧
    first_at (quote long_key) (cstr long_key_round_trip_text) long_key_shadow.length ∧
    long_key_round_trip_text.drop long_key_shadow.length
      = quote long_key ++ (':' :: '"' :: (enc ['a', '\n', 'b'] ++ "\"\x7d".toList)) ∧
    extract_json_string long_key_round_trip_text long_key 8
      = ⟨Exit.Success, [(0, 'z'), (1, 'z'), (2, 'z'), (3, NUL)]⟩ ∧
    (extract_json_string long_key_round_trip_text long_key 8).value (List.replicate 8 NUL)
      = "zzz".toList ∧
    (extract_json_string long_key_round_trip_text long_key 8).value (List.replicate 8 NUL)
      ≠ ['a', '\n', 'b'] :=
  ⟨by decide, by decide, by decide, by decide, by decide, by decide⟩

set_option maxRecDepth 100000 in
/-- C7, at a key of 254 characters: in `{"aaa...ax":"zzz","aaa...a":5}` the quoted key is found,
a colon follows it and the character after that colon is `5`, not a double quote; yet the cut
pattern matches inside the first field and the call returns 0 with `zzz` instead of leaving by
`return -1; // Not a string value`. -/
theorem C7_number_accepted_for_long_key :
    first_at (quote long_key) (cstr long_key_number_text) long_key_shadow.length ∧
    long_key_number_text.drop (long_key_shadow.length + (quote long_key).length)
      = [':', '5', '\x7d'] ∧
    extract_json_string long_key_number_text long_key 8
      = ⟨Exit.Success, [(0, 'z'), (1, 'z'), (2, 'z'), (3, NUL)]⟩ ∧
    (extract_json_string long_key_number_text long_key 8).exit ≠ Exit.NotAString ∧
    (extract_json_string long_key_number_text long_key 8).ret = 0 :=
  ⟨by decide, by decide, by decide, by decide, by decide⟩

set_option maxRecDepth 100000 in
/-- C8, at a key of 254 characters: in `{"aaa...ax":"zzz","aaa...a"}` the quoted key is found
and no colon occurs between the end of its first occurrence and the end of input; yet the cut
pattern matches inside the first field, whose colon is taken, and the call returns 0 with `zzz`
instead of leaving by `return -1; // Invalid JSON format`. -/
theorem C8_missing_colon_accepted_for_long_key :
    first_at (quote long_key) (cstr long_key_no_colon_text) long_key_shadow.length ∧
    ':' ∉ long_key_no_colon_text.drop (long_key_shadow.length + (quote long_key).length) ∧
    extract_json_string long_key_no_colon_text long_key 8
      = ⟨Exit.Success, [(0, 'z'), (1, 'z'), (2, 'z'), (3, NUL)]⟩ ∧
    (extract_json_string long_key_no_colon_text long_key 8).exit ≠ Exit.MalformedField ∧
    (extract_json_string long_key_no_colon_text long_key 8).ret = 0 :=
  ⟨by decide, by decide, by decide, by decide, by decide⟩

set_option maxRecDepth 100000 in
/-- C16, at a key of 258 characters, `aaa...a:"x` and a backslash: the text is the quoted key
followed by `:"v"`. The cut pattern ends before the colon inside the key, so the value is read
from inside the key and runs over the colon that follows the quoted key: the output is `x":`.
One space inserted right after that colon is copied, not skipped: the output becomes `x": `. -/
theorem C16_inserted_space_copied_for_long_key :
    first_at (quote colon_key) (cstr (quote colon_key ++ ':' :: "\"v\"".toList)) 0 ∧
    first_at (quote colon_key) (cstr (quote colon_key ++ ':' :: ' ' :: "\"v\"".toList)) 0 ∧
    isspace ' ' = true ∧
    extract_json_string (quote colon_key ++ ':' :: "\"v\"".toList) colon_key 8
      = ⟨Exit.Success, [(0, 'x'), (1, '"'), (2, ':'), (3, NUL)]⟩ ∧
    extract_json_string (quote colon_key ++ ':' :: ' ' :: "\"v\"".toList) colon_key 8
      = ⟨Exit.Success, [(0, 'x'), (1, '"'), (2, ':'), (3, ' '), (4, NUL)]⟩ ∧
    extract_json_string (quote colon_key ++ ':' :: ' ' :: "\"v\"".toList) colon_key 8
      ≠ extract_json_string (quote colon_key ++ ':' :: "\"v\"".toList) colon_key 8 :=
  ⟨by decide, by decide, by decide, by decide, by decide, by decide⟩

end TesCredential
